import Mathlib

/-!
# AsyncSTM prototype: embedding of `async_stm_prototype.cpp`

The C++ file implements a small software transactional memory with deferred
asynchronous continuations.  This development embeds the semantics of one
thread, and on top of it two models of several threads: threads that have locked
a prefix of their locks in phase 1 of `commit_transaction` (`Committer`), and two
threads whose calls are interleaved (`Thread`, `runPair`).

* an `atomic<T>` object is its `data_`, a `Val` carrying its dynamic element type;
  a `double` is a number or a NaN, which `operator==` finds unequal to itself;
* `commit_transaction` is the result of `commit_traced`, which also records the
  locks, comparisons, stores, dispatches and unlocks of the call in order;
* `atomic_base*` pointers are addresses (`Ptr`), with `NULL = 0`;
* the heap of live atomic objects is a function `Ptr → Val`;
* a failed `assert`, or the null dereference that follows a failed `dynamic_cast`,
  aborts the program: the embedded function returns `none`;
* `hpx::async` is an external dispatcher: it records the continuation it was
  handed and returns a task handle.

Snapshots are held through `std::shared_ptr` in the source and the read list
shares its pointer with the variable map.  No function of `transaction` mutates a
pointee (`transaction::write` rebinds the map's pointer to a fresh clone), so the
sharing is unobservable and snapshots are embedded as plain values.  A second
embedding, `transaction_sp`, keeps the pointers; `runOps_sp_refines` shows that
reading its pointers gives the by-value transaction.
-/

namespace AsyncSTM

/-! ## Values, pointers, the heap -/

/-- Address of an object (`atomic_base*`, `hpx::future<void>*`). -/
abbrev Ptr := Nat

/-- The null pointer. -/
def NULL : Ptr := 0

/-- Element types `T` with which `atomic<T>` is instantiated in `main`. -/
inductive Ty
  | int
  | vec
deriving DecidableEq, Repr

/-- A `double` as far as copying and `operator==` go, which is all the
transaction does with an element: `nan` is a NaN, which `==` finds unequal to
every value, itself included; `num x` is any other value, compared by value
(represented by an integer, the two zeros being one value; arithmetic on doubles
is not embedded). -/
inductive Double
  | num (x : Int)
  | nan
deriving DecidableEq, Repr

/-- The C++ `==` on two `double`s. -/
def Double.eq : Double → Double → Bool
  | .num a, .num b => decide (a = b)
  | _, _ => false

/-- Library function `operator==` on two `std::vector<double>`: equal sizes and
`==` on every pair of elements. -/
def vecEq : List Double → List Double → Bool
  | [], [] => true
  | x :: xs, y :: ys => Double.eq x y && vecEq xs ys
  | _, _ => false

/-- An `atomic<T>` object seen through `atomic_base`: its dynamic type and its
`data_`.  `int` is `atomic<int>`, `vec` is `atomic<std::vector<double>>`. -/
inductive Val
  | int (n : Int)
  | vec (xs : List Double)
deriving DecidableEq, Repr

/-- Dynamic element type of an atomic object. -/
def Val.ty : Val → Ty
  | .int _ => .int
  | .vec _ => .vec

/-- The `data_` members of all live atomic objects, by address. -/
abbrev Cells := Ptr → Val

/-- Store `d` into the `data_` of the object at `var`. -/
def setCell (cells : Cells) (var : Ptr) (d : Val) : Cells :=
  fun p => if p = var then d else cells p

/-- Width of the C++ `int` on the platforms HPX supports. -/
def INT_BITS : Nat := 32

/-- Whether a mathematical integer is a value of the C++ type `int`. -/
def inIntRange (x : Int) : Prop := -(2 : Int) ^ (INT_BITS - 1) ≤ x ∧ x < (2 : Int) ^ (INT_BITS - 1)

instance (x : Int) : Decidable (inIntRange x) := by
  unfold inIntRange; exact inferInstance

/-- Two's-complement reduction of an integer to the range of `int`.  Signed
overflow is undefined in C++; the embedding takes the wrapped result the
hardware produces. -/
def wrapInt (x : Int) : Int :=
  (x + (2 : Int) ^ (INT_BITS - 1)) % (2 : Int) ^ INT_BITS - (2 : Int) ^ (INT_BITS - 1)

/-- The `int` product `a * b`. -/
def intMul (a b : Int) : Int := wrapInt (a * b)

/-- The `int` difference `a - b`. -/
def intSub (a b : Int) : Int := wrapInt (a - b)

/-! ## `atomic<T>` -/

namespace atomic

/-- Source function `atomic::clone`: a new atomic object holding a copy of `data_` (taken under
the lock of `self`). -/
def clone (self : Val) : Val := self

/-- Source function `atomic::write(T const&)`, the unsynchronised direct write: `data_ = rhs`. -/
def write_direct (cells : Cells) (var : Ptr) (rhs : Val) : Cells :=
  setCell cells var rhs

/-- Source function `atomic::write(atomic_base const&)`:
`data_ = dynamic_cast<atomic const*>(&rhs)->read()`.  Returns the new `data_`;
when the dynamic type of `rhs` is not that of `self` the cast yields null and the
call dereferences it (`none`). -/
def write (self rhs : Val) : Option Val :=
  match self, rhs with
  | .int _, .int n => some (.int n)
  | .vec _, .vec xs => some (.vec xs)
  | _, _ => none

/-- Source function `atomic::operator==`:
`data_ == dynamic_cast<atomic const*>(&rhs)->read()`, `none` on a failed cast. -/
def eq (self rhs : Val) : Option Bool :=
  match self, rhs with
  | .int a, .int b => some (decide (a = b))
  | .vec xs, .vec ys => some (vecEq xs ys)
  | _, _ => none

/-- Whether `operator==` finds the value equal to itself (no NaN in it). -/
def selfEqual (v : Val) : Bool :=
  eq v v == some true

end atomic

/-! ## The containers of `transaction` -/

/-- Library function `std::map::find` on the entries of the map in key order. -/
def mapFind : List (Ptr × Val) → Ptr → Option Val
  | [], _ => none
  | (k, v) :: m, var => if var = k then some v else mapFind m var

/-- Placement of a new entry by `std::map::insert` in a map kept in increasing
key order (the callers insert only after `find` missed, which is when
`insert` reports success). -/
def orderedInsert : List (Ptr × Val) → Ptr → Val → List (Ptr × Val)
  | [], var, v => [(var, v)]
  | (k, s) :: m, var, v =>
    if var < k then (var, v) :: (k, s) :: m else (k, s) :: orderedInsert m var v

/-- Assignment through the iterator of an existing entry:
`(*result.first).second = v`. -/
def mapAssign : List (Ptr × Val) → Ptr → Val → List (Ptr × Val)
  | [], _, _ => []
  | (k, s) :: m, var, v =>
    if var = k then (k, v) :: m else (k, s) :: mapAssign m var v

/-- Library function `std::set::insert` on the elements of the set in increasing order. -/
def setInsert : List Ptr → Ptr → List Ptr
  | [], var => [var]
  | k :: s, var =>
    if var < k then var :: k :: s
    else if var = k then k :: s
    else k :: setInsert s var

/-! ## External collaborator: the dispatcher -/

/-- A continuation `HPX_STD_FUNCTION<void(transaction*)>`: the identity of its
code and the values it captured by copy. -/
structure Cont where
  code : Nat
  captured : List Int
deriving DecidableEq, Repr

/-- Everything outside the transaction object: the live atomic objects, the
continuations handed to `hpx::async` so far (oldest first), and the contents of
the `hpx::future<void>` objects by address (`none`: default-constructed,
`some h`: holds task handle `h`). -/
structure World where
  cells : Cells
  dispatched : List Cont
  futures : Ptr → Option Nat

/-- Modelled from the spec: the AsyncDispatcher, in the source the library call
`hpx::async(F, this)`, accepts a continuation and returns a handle of the
spawned task.  The world records the continuation; the handle is the position of
this dispatch in the record. -/
def hpx_async (w : World) (F : Cont) : World × Nat :=
  ({ w with dispatched := w.dispatched ++ [F] }, w.dispatched.length)

/-- Move-assignment of a task handle into the future object at `fut`. -/
def setFuture (w : World) (fut : Ptr) (h : Nat) : World :=
  { w with futures := fun p => if p = fut then some h else w.futures p }

/-- What `commit_transaction` does to the atomic objects and the dispatcher, in
order: `lock` is `(*var.first).lock()`, `compare` a call of `operator==` on the
cell, `store` a call of `write(atomic_base const&)` on the cell, `dispatch` a call
of `hpx::async`, `unlock` the destruction of a `std::unique_lock`. -/
inductive Event
  | lock (c : Ptr)
  | compare (c : Ptr)
  | store (c : Ptr)
  | dispatch (F : Cont)
  | unlock (c : Ptr)
deriving DecidableEq, Repr

/-! ## `transaction` -/

/-- The four members of `struct transaction`; `variables_` is the member
`variables`, a reserved word here. -/
structure transaction where
  read_list : List (Ptr × Val)
  write_set : List Ptr
  async_list : List (Ptr × Cont)
  variables_ : List (Ptr × Val)
deriving DecidableEq, Repr

namespace transaction

/-- A default-constructed `transaction`. -/
def empty : transaction := ⟨[], [], [], []⟩

/-- Source function `transaction::clear`. -/
def clear (_t : transaction) : transaction :=
  { read_list := [], write_set := [], async_list := [], variables_ := [] }

/-- Phase 1 of `commit_transaction`: lock every key of the variable map in map
order; the result lists the locks taken. -/
def acquireLocks : List (Ptr × Val) → Option (List Ptr)
  | [] => some []
  | (var, _) :: rest =>
    if var = NULL then none
    else match acquireLocks rest with
      | none => none
      | some locks => some (var :: locks)

/-- The outcome of phase 2 of `commit_transaction`: compare the recorded reads
with the current values.  `some false` is the early `return false`.  It is the
second component of `validateT` (`validateT_snd`). -/
def validate (cells : Cells) : List (Ptr × Val) → Option Bool
  | [] => some true
  | (var, snap) :: rest =>
    if var = NULL then none
    else match atomic.eq (cells var) snap with
      | none => none
      | some false => some false
      | some true => validate cells rest

/-- The cells after phase 3 of `commit_transaction`: perform the writes, reading
from the variable map.  It is the second component of `applyWritesT`
(`applyWritesT_snd`). -/
def applyWrites (vars : List (Ptr × Val)) : List Ptr → Cells → Option Cells
  | [], cells => some cells
  | var :: rest, cells =>
    if var = NULL then none
    else match mapFind vars var with
      | none => none
      | some snap =>
        match atomic.write (cells var) snap with
        | none => none
        | some d => applyWrites vars rest (setCell cells var d)

/-- The world after phase 4 of `commit_transaction`: perform the async
operations.  It is the second component of `dispatchAllT` (`dispatchAllT_snd`). -/
def dispatchAll : List (Ptr × Cont) → World → World
  | [], w => w
  | (fut, F) :: rest, w =>
    if fut = NULL then dispatchAll rest (hpx_async w F).1
    else dispatchAll rest (setFuture (hpx_async w F).1 fut (hpx_async w F).2)

/-- Locks taken by phase 1 when it stops at a null key (the `assert`). -/
def locksBeforeAbort : List (Ptr × Val) → List Ptr
  | [] => []
  | (var, _) :: rest => if var = NULL then [] else var :: locksBeforeAbort rest

/-- The loop of phase 2 as it runs: the calls of `operator==` it makes, in
order, and its outcome (`some false` is the early `return false`, `none` an
abort). -/
def validateT (cells : Cells) : List (Ptr × Val) → List Event × Option Bool
  | [] => ([], some true)
  | (var, snap) :: rest =>
    if var = NULL then ([], none)
    else match atomic.eq (cells var) snap with
      | none => ([Event.compare var], none)
      | some false => ([Event.compare var], some false)
      | some true =>
        (Event.compare var :: (validateT cells rest).1, (validateT cells rest).2)

/-- The loop of phase 3 as it runs: the calls of `write(atomic_base const&)` it
makes, in order, and the cells afterwards (`none` on an abort). -/
def applyWritesT (vars : List (Ptr × Val)) : List Ptr → Cells → List Event × Option Cells
  | [], cells => ([], some cells)
  | var :: rest, cells =>
    if var = NULL then ([], none)
    else match mapFind vars var with
      | none => ([], none)
      | some snap =>
        match atomic.write (cells var) snap with
        | none => ([Event.store var], none)
        | some d =>
          (Event.store var :: (applyWritesT vars rest (setCell cells var d)).1,
           (applyWritesT vars rest (setCell cells var d)).2)

/-- The loop of phase 4 as it runs: the calls of `hpx::async` it makes, in
order, and the world afterwards. -/
def dispatchAllT : List (Ptr × Cont) → World → List Event × World
  | [], w => ([], w)
  | (fut, F) :: rest, w =>
    if fut = NULL then
      (Event.dispatch F :: (dispatchAllT rest (hpx_async w F).1).1,
       (dispatchAllT rest (hpx_async w F).1).2)
    else
      (Event.dispatch F ::
        (dispatchAllT rest (setFuture (hpx_async w F).1 fut (hpx_async w F).2)).1,
       (dispatchAllT rest (setFuture (hpx_async w F).1 fut (hpx_async w F).2)).2)

/-- Source function `transaction::commit_transaction` as it runs: its trace and
its result.  Phase 1 pushes one `std::unique_lock` per key of the variable map
on the local list `locks`; phases 2 to 4 run while the list is alive; the locks
are released when the function returns (`return false` after a mismatch,
`return true` at the end).  A call that aborts has result `none` and releases
nothing. -/
def commit_traced (t : transaction) (w : World) :
    List Event × Option (Bool × transaction × World) :=
  match acquireLocks t.variables_ with
  | none => ((locksBeforeAbort t.variables_).map Event.lock, none)
  | some locks =>
    match validateT w.cells t.read_list with
    | (ev2, none) => (locks.map Event.lock ++ ev2, none)
    | (ev2, some false) =>
      (locks.map Event.lock ++ ev2 ++ locks.map Event.unlock, some (false, t.clear, w))
    | (ev2, some true) =>
      match applyWritesT t.variables_ t.write_set w.cells with
      | (ev3, none) => (locks.map Event.lock ++ (ev2 ++ ev3), none)
      | (ev3, some cells1) =>
        (locks.map Event.lock ++
            (ev2 ++ ev3 ++ (dispatchAllT t.async_list { w with cells := cells1 }).1) ++
            locks.map Event.unlock,
          some (true, t, (dispatchAllT t.async_list { w with cells := cells1 }).2))

/-- Source function `transaction::commit_transaction`.  The result is the
returned boolean, the transaction object and the world afterwards; `none` when
the call aborts. -/
def commit_transaction (t : transaction) (w : World) : Option (Bool × transaction × World) :=
  (commit_traced t w).2

/-- The trace of `commit_transaction`. -/
def commit_events (t : transaction) (w : World) : List Event :=
  (commit_traced t w).1

/-- Source function `transaction::read`: the transaction afterwards and the
snapshot returned.  The first branch is `result.second == true` (the key was absent and the cloned
value takes the place of the placeholder), the second returns the entry found. -/
def read (t : transaction) (cells : Cells) (var : Ptr) : Option (transaction × Val) :=
  if var = NULL then none
  else match mapFind t.variables_ var with
    | none =>
      some ({ t with
              variables_ := orderedInsert t.variables_ var (atomic.clone (cells var))
              read_list := t.read_list ++ [(var, atomic.clone (cells var))] },
            atomic.clone (cells var))
    | some snap => some (t, snap)

/-- Source function `transaction::write`. -/
def write (t : transaction) (var : Ptr) (value : Val) : Option transaction :=
  if var = NULL then none
  else match mapFind t.variables_ var with
    | none =>
      some { t with
             variables_ := orderedInsert t.variables_ var (atomic.clone value)
             write_set := setInsert t.write_set var }
    | some _ =>
      some { t with
             variables_ := mapAssign t.variables_ var (atomic.clone value)
             write_set := setInsert t.write_set var }

/-- Source function `transaction::async`. -/
def async (t : transaction) (fut : Ptr) (F : Cont) : transaction :=
  { t with async_list := t.async_list ++ [(fut, F)] }

/-- Whether `commit_transaction` can run to its end on `t`: no entry is null,
each recorded read and each pending write carries a snapshot of the dynamic
type of its variable, and each variable of the write set is in the map. -/
def WellFormed (t : transaction) (cells : Cells) : Prop :=
  (∀ e ∈ t.variables_, e.1 ≠ NULL) ∧
  (∀ e ∈ t.read_list, e.1 ≠ NULL ∧ e.2.ty = (cells e.1).ty) ∧
  (∀ var ∈ t.write_set,
    var ≠ NULL ∧ (mapFind t.variables_ var).map Val.ty = some (cells var).ty)

instance (t : transaction) (cells : Cells) : Decidable (t.WellFormed cells) := by
  unfold WellFormed; exact inferInstance

end transaction

/-! ## Straight-line attempts -/

/-- One call made during an attempt: `trans.read(var)`, `trans.write(var, value)`,
`trans.async(fut, F)`, or an unsynchronised `atomic::write(T const&)` on a live
object made outside the transaction (`A.write(3)` in `main`). -/
inductive Op
  | read (var : Ptr)
  | write (var : Ptr) (value : Val)
  | async (fut : Ptr) (F : Cont)
  | direct (var : Ptr) (rhs : Val)
deriving DecidableEq, Repr

/-- Effect of one call on the transaction and the world. -/
def Op.step (op : Op) (t : transaction) (w : World) : Option (transaction × World) :=
  match op with
  | .read var =>
    match t.read w.cells var with
    | none => none
    | some (t1, _) => some (t1, w)
  | .write var value =>
    match t.write var value with
    | none => none
    | some t1 => some (t1, w)
  | .async fut F => some (t.async fut F, w)
  | .direct var rhs => some (t, { w with cells := atomic.write_direct w.cells var rhs })

/-- A sequence of calls, in program order. -/
def runOps : List Op → transaction → World → Option (transaction × World)
  | [], t, w => some (t, w)
  | op :: rest, t, w =>
    match op.step t w with
    | none => none
    | some (t1, w1) => runOps rest t1 w1

/-- Whether the call is made from outside the transaction. -/
def Op.isDirect : Op → Bool
  | .direct _ _ => true
  | _ => false

/-- Whether the atomic variable named by a call, if any, is non-null. -/
def Op.nonNull : Op → Bool
  | .read var => var != NULL
  | .write var _ => var != NULL
  | .async _ _ => true
  | .direct _ _ => true

/-- Whether a `write` call passes a snapshot of the dynamic type of its variable. -/
def Op.typed (cells : Cells) : Op → Bool
  | .write var value => value.ty == (cells var).ty
  | _ => true

/-- Whether the call is `trans.write` on `var`. -/
def Op.writesTo (var : Ptr) : Op → Bool
  | .write v _ => v == var
  | _ => false

/-- The value most recently passed to `trans.write` for `var`, if any. -/
def lastWrite : List Op → Ptr → Option Val
  | [], _ => none
  | op :: rest, var =>
    match lastWrite rest var with
    | some v => some v
    | none =>
      match op with
      | .write v value => if v = var then some value else none
      | _ => none

/-- Whether every variable the attempt touches is first touched by a write:
each `read` names a variable written earlier (`seen`). -/
def firstAccessIsWrite : List Ptr → List Op → Bool
  | _, [] => true
  | seen, .read var :: rest => decide (var ∈ seen) && firstAccessIsWrite seen rest
  | seen, .write var _ :: rest => firstAccessIsWrite (var :: seen) rest
  | seen, .async _ _ :: rest => firstAccessIsWrite seen rest
  | seen, .direct _ _ :: rest => firstAccessIsWrite seen rest

/-! ## User bodies and the retry loop of `main` -/

/-- The body of an atomic block: the calls it makes on the transaction, each
continuing with the value read.  `abort` is a null dereference in user code. -/
inductive Prog
  | done
  | abort
  | read (var : Ptr) (k : Val → Prog)
  | write (var : Ptr) (value : Val) (k : Prog)
  | async (fut : Ptr) (F : Cont) (k : Prog)
  | direct (var : Ptr) (rhs : Val) (k : Prog)

namespace Prog

/-- Run a body on transaction `t`. -/
def run : Prog → transaction → World → Option (transaction × World)
  | .done, t, w => some (t, w)
  | .abort, _, _ => none
  | .read var k, t, w =>
    match t.read w.cells var with
    | none => none
    | some (t1, s) => (k s).run t1 w
  | .write var value k, t, w =>
    match t.write var value with
    | none => none
    | some t1 => k.run t1 w
  | .async fut F k, t, w => k.run (t.async fut F) w
  | .direct var rhs k, t, w =>
    k.run t { w with cells := atomic.write_direct w.cells var rhs }

/-- The `trans.async` calls a body makes when run on `t`, in program order. -/
def enqueued : Prog → transaction → World → List (Ptr × Cont)
  | .done, _, _ => []
  | .abort, _, _ => []
  | .read var k, t, w =>
    match t.read w.cells var with
    | none => []
    | some (t1, s) => (k s).enqueued t1 w
  | .write var value k, t, w =>
    match t.write var value with
    | none => []
    | some t1 => k.enqueued t1 w
  | .async fut F k, t, w => (fut, F) :: k.enqueued (t.async fut F) w
  | .direct var rhs k, t, w =>
    k.enqueued t { w with cells := atomic.write_direct w.cells var rhs }

end Prog

namespace local_atomic

/-- Source function `atomic<T>::local_atomic::operator T const&` for `T = int`:
`dynamic_cast<atomic const*>(&trans_->read(var_))->read()`. -/
def toInt (var_ : Ptr) (k : Int → Prog) : Prog :=
  .read var_ fun s =>
    match s with
    | .int n => k n
    | .vec _ => .abort

/-- Source function `local_atomic::operator=(atomic_base const& rhs)`: `trans_->write(var_, rhs)`. -/
def assign (var_ : Ptr) (rhs : Val) (k : Prog) : Prog :=
  .write var_ rhs k

/-- Source function `local_atomic::operator=(T const& rhs)` for `T = int`:
`atomic tmp(rhs); trans_->write(var_, tmp)`. -/
def assignInt (var_ : Ptr) (rhs : Int) (k : Prog) : Prog :=
  .write var_ (.int rhs) k

end local_atomic

/-- One iteration of `do { body } while (!t.commit_transaction())`: the body,
then the commit. -/
def attempt (body : Prog) (t : transaction) (w : World) : Option (Bool × transaction × World) :=
  match body.run t w with
  | none => none
  | some (t1, w1) => t1.commit_transaction w1

/-- The retry loop of `main`: one `transaction t` declared before the loop and
used by every iteration.  `body n` is the block as executed by iteration `n`
(counted from 0; the locals of `main` such as `fail` are functions of `n`).
The result is the number of iterations made, the transaction and the world;
`none` when the program aborts or `fuel` iterations do not suffice. -/
def driverLoop (body : Nat → Prog) : Nat → Nat → transaction → World → Option (Nat × transaction × World)
  | 0, _, _, _ => none
  | fuel + 1, n, t, w =>
    match attempt (body n) t w with
    | none => none
    | some (true, t1, w1) => some (n + 1, t1, w1)
    | some (false, t1, w1) => driverLoop body fuel (n + 1) t1 w1

/-- The loop of `main` started on a default-constructed transaction. -/
def driver (body : Nat → Prog) (fuel : Nat) (w : World) : Option (Nat × transaction × World) :=
  driverLoop body fuel 0 transaction.empty w

/-- The atomic-block driver as the specification words it:
`repeat txn ← fresh Transaction; run user-body(txn) until txn.commit() = success`. -/
def driverSpecLoop (body : Nat → Prog) : Nat → Nat → World → Option (Nat × transaction × World)
  | 0, _, _ => none
  | fuel + 1, n, w =>
    match attempt (body n) transaction.empty w with
    | none => none
    | some (true, t1, w1) => some (n + 1, t1, w1)
    | some (false, _, w1) => driverSpecLoop body fuel (n + 1) w1

/-- The specified driver from its first iteration. -/
def driverSpec (body : Nat → Prog) (fuel : Nat) (w : World) : Option (Nat × transaction × World) :=
  driverSpecLoop body fuel 0 w

/-- World after `k` consecutive failed iterations of the loop of `main` starting
with iteration `n`, together with the transaction object; `none` if one of them
does not end in a failed commit. -/
def failedAttempts (body : Nat → Prog) : Nat → Nat → transaction → World → Option (transaction × World)
  | 0, _, t, w => some (t, w)
  | k + 1, n, t, w =>
    match attempt (body n) t w with
    | some (false, t1, w1) => failedAttempts body k (n + 1) t1 w1
    | _ => none

/-! ## The atomic blocks of `main` -/

/-- First block of `main`: `A_ = A_*A_ - B_`, operands evaluated left to right. -/
def body_S1 (A B : Ptr) : Prog :=
  local_atomic.toInt A fun a1 =>
  local_atomic.toInt A fun a2 =>
  local_atomic.toInt B fun b =>
  local_atomic.assignInt A (intSub (intMul a1 a2) b) .done

/-- Second block of `main`:
`A_ = A_*A_; t.async(&IO, [local_A = int(A_)] ...); A_ = A_ - B_`.
The continuation is identified by `code = 0` and captures `local_A`. -/
def body_S2 (A B IO_ : Ptr) : Prog :=
  local_atomic.toInt A fun a1 =>
  local_atomic.toInt A fun a2 =>
  local_atomic.assignInt A (intMul a1 a2) <|
  local_atomic.toInt A fun local_A =>
  .async IO_ ⟨0, [local_A]⟩ <|
  local_atomic.toInt A fun a3 =>
  local_atomic.toInt B fun b =>
  local_atomic.assignInt A (intSub a3 b) .done

/-- Third block of `main`: `int tmp = A_*A_; if (fail) A.write(w); A_ = tmp`,
where `main` has `w = 3` and `fail` is true in the first iteration only. -/
def body_S3 (A : Ptr) (w : Int) (fail : Bool) : Prog :=
  local_atomic.toInt A fun a1 =>
  local_atomic.toInt A fun a2 =>
  if fail then .direct A (.int w) (local_atomic.assignInt A (intMul a1 a2) .done)
  else local_atomic.assignInt A (intMul a1 a2) .done

/-- The third block as a function of the iteration number. -/
def loop_S3 (A : Ptr) (w : Int) (n : Nat) : Prog :=
  body_S3 A w (n == 0)

/-- The body that makes the calls of a straight-line attempt, in order. -/
def Prog.ofOps : List Op → Prog
  | [] => .done
  | .read var :: rest => .read var fun _ => Prog.ofOps rest
  | .write var value :: rest => .write var value (Prog.ofOps rest)
  | .async fut F :: rest => .async fut F (Prog.ofOps rest)
  | .direct var rhs :: rest => .direct var rhs (Prog.ofOps rest)

/-! ## Concrete states used to instantiate the theorems -/

/-- The world of the first three blocks of `main`: `A` (address 1) holds 4, every
other atomic object holds 1, nothing dispatched, every future default-constructed. -/
def world_A4_B1 : World :=
  ⟨fun p => if p = 1 then .int 4 else .int 1, [], fun _ => none⟩

/-- The world of the third block right after `A.write(3)`. -/
def world_A3 : World :=
  ⟨fun p => if p = 1 then .int 3 else .int 1, [], fun _ => none⟩

/-- The world `world_A4_B1` after an unsynchronised `A.write(3)`. -/
def world_A4_then_3 : World :=
  { world_A4_B1 with cells := atomic.write_direct world_A4_B1.cells 1 (.int 3) }

/-- The transaction after `A_ = A_*A_ - B_` on `world_A4_B1` (`A` at 1, `B` at 2). -/
def txn_S1 : transaction :=
  ⟨[(1, .int 4), (2, .int 1)], [1], [], [(1, .int 15), (2, .int 1)]⟩

/-- A transaction that read `A = 4`, staged `A = 16` and enqueued a continuation
bound to the future at address 5. -/
def txn_square_async : transaction :=
  ⟨[(1, .int 4)], [1], [(5, ⟨0, [16]⟩)], [(1, .int 16)]⟩

/-- The transaction after `trans.write(A, v)` on an empty transaction, where `A`
is an `atomic<int>` at address 1 and `v` an atomic vector. -/
def txn_mistyped : transaction :=
  ⟨[], [1], [], [(1, .vec [])]⟩

/-- A transaction with three queued continuations: two bound to the future at
address 5, one fire-and-forget. -/
def txn_three_async : transaction :=
  ⟨[], [], [(5, ⟨0, []⟩), (NULL, ⟨1, []⟩), (5, ⟨2, []⟩)], []⟩

/-- A block that reads `A` (address 1), enqueues a continuation tagged with the
iteration number and bound to the future at address 5, and in its first
iteration only has `A` overwritten from outside before the commit. -/
def loop_conflict_async (n : Nat) : Prog :=
  .read 1 fun _ =>
  .async 5 ⟨n, []⟩ <|
  if n == 0 then .direct 1 (.int 3) .done else .done

/-- A world in which `A` (address 1) holds 65536 and every other atomic object 0. -/
def world_A65536_B0 : World :=
  ⟨fun p => if p = 1 then .int 65536 else .int 0, [], fun _ => none⟩

/-- An attempt that writes `A` blindly, reads it back and writes it again. -/
def ops_blind : List Op :=
  [.write 1 (.int 7), .read 1, .async 5 ⟨0, []⟩, .write 1 (.int 8)]

/-- An attempt that reads `A` and `B` and writes `A`. -/
def ops_read_write : List Op :=
  [.read 1, .read 2, .write 1 (.int 15), .async NULL ⟨0, []⟩]

/-- An attempt whose only call writes an atomic vector to the `atomic<int>` `A`. -/
def ops_mistyped : List Op :=
  [.write 1 (.vec [])]

/-! ## Reachable transaction states -/

/-- One call on a transaction object, or one step of the environment: a call of
an attempt (`Op`), `t.clear()`, or `t.commit_transaction()` whose returned boolean
the caller is free to ignore. -/
inductive Call
  | op (o : Op)
  | clear
  | commit
deriving DecidableEq, Repr

/-- Effect of one call; `none` when the call aborts. -/
def Call.step (c : Call) (t : transaction) (w : World) : Option (transaction × World) :=
  match c with
  | .op o => o.step t w
  | .clear => some (t.clear, w)
  | .commit =>
    match t.commit_transaction w with
    | none => none
    | some (_, t1, w1) => some (t1, w1)

/-- A sequence of calls, in program order. -/
def runCalls : List Call → transaction → World → Option (transaction × World)
  | [], t, w => some (t, w)
  | c :: rest, t, w =>
    match c.step t w with
    | none => none
    | some (t1, w1) => runCalls rest t1 w1

/-- The transaction reached from a default-constructed one by a sequence of
calls, started in world `w`. -/
def reach (calls : List Call) (w : World) : Option transaction :=
  (runCalls calls transaction.empty w).map Prod.fst

/-- The relations between the four containers that every call preserves. -/
structure transaction.Invariant (t : transaction) : Prop where
  keys_nonNull : ∀ e ∈ t.variables_, e.1 ≠ NULL
  reads_nonNull : ∀ e ∈ t.read_list, e.1 ≠ NULL
  writes_nonNull : ∀ c ∈ t.write_set, c ≠ NULL
  keys_eq : ∀ c, c ∈ t.variables_.map Prod.fst ↔
    (c ∈ t.read_list.map Prod.fst ∨ c ∈ t.write_set)
  keys_sorted : (t.variables_.map Prod.fst).Pairwise (fun a b => a < b)
  reads_nodup : (t.read_list.map Prod.fst).Nodup
  unwritten : ∀ e ∈ t.read_list, e.1 ∉ t.write_set → mapFind t.variables_ e.1 = some e.2

/-- The conditions checked by the four `assert`s of `commit_transaction`, for
every element its loops can visit: `var.first != NULL` in phases 1 and 2,
`var != NULL` and `it != variables.end()` in phase 3. -/
def transaction.assertsHold (t : transaction) : Prop :=
  (∀ e ∈ t.variables_, e.1 ≠ NULL) ∧
  (∀ e ∈ t.read_list, e.1 ≠ NULL) ∧
  (∀ var ∈ t.write_set, var ≠ NULL ∧ mapFind t.variables_ var ≠ none)

instance (t : transaction) : Decidable t.assertsHold := by
  unfold transaction.assertsHold; exact inferInstance

/-- Calls that read `A`, stage `A = 16` and enqueue a continuation. -/
def calls_square_async : List Call :=
  [.op (.read 1), .op (.write 1 (.int 16)), .op (.async 5 ⟨0, [16]⟩)]

/-- A longer history: a commit that succeeds, a conflict injected from outside,
a commit that fails, an explicit `clear`, then more reads and writes. -/
def calls_mixed : List Call :=
  [.op (.read 1), .commit, .op (.write 2 (.int 5)), .op (.direct 1 (.int 3)), .commit,
   .op (.read 1), .clear, .op (.write 3 (.int 7)), .op (.read 2), .op (.read 3),
   .op (.write 2 (.int 8)), .op (.read 1)]

/-- An attempt that reads `B`, writes an atomic vector to the `atomic<int>` `A`,
and has `B` overwritten from outside before the commit. -/
def ops_mistyped_conflict : List Op :=
  [.read 2, .write 1 (.vec []), .direct 2 (.int 2)]

/-! ## The lock discipline of `commit_transaction` as a trace -/

/-- Monitor of the lock preconditions along a trace, given the locks held: a
lock is taken only when not held, a comparison or store on a cell needs the lock
of that cell held, and only a held lock is released. -/
def lockDiscipline : List Ptr → List Event → Bool
  | _, [] => true
  | held, .lock c :: rest => decide (c ∉ held) && lockDiscipline (c :: held) rest
  | held, .compare c :: rest => decide (c ∈ held) && lockDiscipline held rest
  | held, .store c :: rest => decide (c ∈ held) && lockDiscipline held rest
  | held, .dispatch _ :: rest => lockDiscipline held rest
  | held, .unlock c :: rest => decide (c ∈ held) && lockDiscipline (held.erase c) rest

/-- Whether an event takes or releases a lock. -/
def Event.isLockOp : Event → Bool
  | .lock _ => true
  | .unlock _ => true
  | _ => false

/-- The working set after the mixed history `calls_mixed`. -/
def txn_mixed : transaction :=
  ⟨[(2, .int 1), (1, .int 3)], [2, 3], [], [(1, .int 3), (2, .int 8), (3, .int 7)]⟩

/-! ## `transaction` with its `std::shared_ptr` members

The embedding above stores snapshots by value.  The source stores them behind
`std::shared_ptr<atomic_base>`, and `read` puts the same pointer into the
variable map and into the read list.  The definitions below keep the pointers:
a snapshot object created by `clone` lives in `heap` at the address that is its
index, the two containers hold addresses.  `transaction_sp.abs` reads the
pointers, which gives the by-value transaction. -/

/-- Library function `std::map::find` on a map to pointers. -/
def spFind : List (Ptr × Nat) → Ptr → Option Nat
  | [], _ => none
  | (k, a) :: m, var => if var = k then some a else spFind m var

/-- Placement of a new entry by `std::map::insert` in a map to pointers. -/
def spOrderedInsert : List (Ptr × Nat) → Ptr → Nat → List (Ptr × Nat)
  | [], var, a => [(var, a)]
  | (k, b) :: m, var, a =>
    if var < k then (var, a) :: (k, b) :: m else (k, b) :: spOrderedInsert m var a

/-- Assignment of a pointer through the iterator of an existing entry:
`(*result.first).second = entry.second`. -/
def spAssign : List (Ptr × Nat) → Ptr → Nat → List (Ptr × Nat)
  | [], _, _ => []
  | (k, b) :: m, var, a =>
    if var = k then (k, a) :: m else (k, b) :: spAssign m var a

/-- The members of `struct transaction` with the pointers kept, and the snapshot
objects they point to. -/
structure transaction_sp where
  read_list : List (Ptr × Nat)
  write_set : List Ptr
  async_list : List (Ptr × Cont)
  variables_ : List (Ptr × Nat)
  heap : List Val
deriving DecidableEq, Repr

namespace transaction_sp

/-- A default-constructed `transaction`. -/
def empty : transaction_sp := ⟨[], [], [], [], []⟩

/-- Source function `transaction::read`, pointers kept: on a first read the
object created by `(*var).clone()` gets a new address, and the pair pushed on
the read list is a copy of the map entry, so both hold that address.  The result
is the address of the snapshot returned. -/
def read (t : transaction_sp) (cells : Cells) (var : Ptr) : Option (transaction_sp × Nat) :=
  if var = NULL then none
  else match spFind t.variables_ var with
    | none =>
      some ({ t with
              heap := t.heap ++ [atomic.clone (cells var)]
              variables_ := spOrderedInsert t.variables_ var t.heap.length
              read_list := t.read_list ++ [(var, t.heap.length)] },
            t.heap.length)
    | some a => some (t, a)

/-- Source function `transaction::write`, pointers kept: `value.clone()` creates
a new object; the map entry is inserted with, or rebound to, its address. -/
def write (t : transaction_sp) (var : Ptr) (value : Val) : Option transaction_sp :=
  if var = NULL then none
  else match spFind t.variables_ var with
    | none =>
      some { t with
             heap := t.heap ++ [atomic.clone value]
             variables_ := spOrderedInsert t.variables_ var t.heap.length
             write_set := setInsert t.write_set var }
    | some _ =>
      some { t with
             heap := t.heap ++ [atomic.clone value]
             variables_ := spAssign t.variables_ var t.heap.length
             write_set := setInsert t.write_set var }

/-- Source function `transaction::async`. -/
def async (t : transaction_sp) (fut : Ptr) (F : Cont) : transaction_sp :=
  { t with async_list := t.async_list ++ [(fut, F)] }

/-- The entries of a container with each pointer replaced by the object it
points to. -/
def deref (heap : List Val) (l : List (Ptr × Nat)) : List (Ptr × Val) :=
  l.map fun e => (e.1, heap.getD e.2 (.int 0))

/-- The by-value transaction that a transaction with pointers stands for. -/
def abs (t : transaction_sp) : transaction :=
  ⟨deref t.heap t.read_list, t.write_set, t.async_list, deref t.heap t.variables_⟩

/-- Every pointer held by the transaction points to a snapshot object. -/
def Valid (t : transaction_sp) : Prop :=
  (∀ e ∈ t.read_list, e.2 < t.heap.length) ∧ (∀ e ∈ t.variables_, e.2 < t.heap.length)

instance (t : transaction_sp) : Decidable t.Valid := by
  unfold Valid; exact inferInstance

end transaction_sp

/-- Effect of one call on the transaction with pointers. -/
def Op.step_sp (op : Op) (t : transaction_sp) (w : World) : Option (transaction_sp × World) :=
  match op with
  | .read var =>
    match t.read w.cells var with
    | none => none
    | some (t1, _) => some (t1, w)
  | .write var value =>
    match t.write var value with
    | none => none
    | some t1 => some (t1, w)
  | .async fut F => some (t.async fut F, w)
  | .direct var rhs => some (t, { w with cells := atomic.write_direct w.cells var rhs })

/-- A sequence of calls on the transaction with pointers. -/
def runOps_sp : List Op → transaction_sp → World → Option (transaction_sp × World)
  | [], t, w => some (t, w)
  | op :: rest, t, w =>
    match op.step_sp t w with
    | none => none
    | some (t1, w1) => runOps_sp rest t1 w1

/-- Calls after a first read of `A`: reads, a write to `B`, two writes to `A`. -/
def ops_overwrite : List Op :=
  [.read 1, .write 2 (.int 5), .write 1 (.int 16), .read 2, .async 5 ⟨0, []⟩,
   .write 1 (.int 15), .read 1]

/-- The transaction with pointers after a first read of `A = 4`. -/
def txn_sp_read_A : transaction_sp :=
  ⟨[(1, 0)], [], [], [(1, 0)], [.int 4]⟩

/-- The transaction with pointers after `ops_overwrite` on `txn_sp_read_A`: the
read list still points to object 0, the map entry of `A` to object 3. -/
def txn_sp_overwritten : transaction_sp :=
  ⟨[(1, 0)], [1, 2], [(5, ⟨0, []⟩)], [(1, 3), (2, 1)],
   [.int 4, .int 5, .int 16, .int 15]⟩

/-- A world in which the atomic vector `U` (address 4) holds `[0, NaN]` and every
other atomic object holds the `int` 1. -/
def world_U_nan : World :=
  ⟨fun p => if p = 4 then .vec [.num 0, .nan] else .int 1, [], fun _ => none⟩

/-- Whether a `read` call names a cell whose live value `operator==` finds equal
to itself (a value without NaN). -/
def Op.readsSelfEqual (cells : Cells) : Op → Bool
  | .read var => atomic.selfEqual (cells var)
  | _ => true

/-- An attempt whose only call reads the atomic vector `U`. -/
def ops_read_U : List Op :=
  [.read 4]

/-! ## Threads inside phase 1 of `commit_transaction` -/

/-- The mutexes phase 1 of `commit_transaction` locks, in the order in which the
loop over `variables` locks them. -/
def transaction.lockOrder (t : transaction) : List Ptr :=
  match transaction.acquireLocks t.variables_ with
  | some locks => locks
  | none => transaction.locksBeforeAbort t.variables_

/-- A thread that has called `commit_transaction` on `txn`: `taken` is the number
of iterations of the locking loop of phase 1 it has completed. -/
structure Committer where
  txn : transaction
  taken : Nat
deriving DecidableEq, Repr

/-- The mutexes the thread holds (the list `locks` of phase 1 so far). -/
def Committer.held (p : Committer) : List Ptr :=
  p.txn.lockOrder.take p.taken

/-- The mutex the next iteration of the locking loop locks; `none` when phase 1
is over (the thread goes on to phases 2 to 5 and releases its locks). -/
def Committer.waitsFor (p : Committer) : Option Ptr :=
  p.txn.lockOrder[p.taken]?

/-- Whether the thread cannot go on: the mutex it is about to lock is held by a
thread of the pool. -/
def Committer.blocked (pool : List Committer) (p : Committer) : Bool :=
  match p.waitsFor with
  | none => false
  | some c => pool.any fun q => decide (c ∈ q.held)

/-- A transaction that wrote the cells at addresses 1 and 2. -/
def txn_w12 : transaction :=
  ⟨[], [1, 2], [], [(1, .int 0), (2, .int 0)]⟩

/-- A transaction that wrote the cells at addresses 3 and 2, in this order. -/
def txn_w23 : transaction :=
  ⟨[], [2, 3], [], [(2, .int 0), (3, .int 0)]⟩

/-- A transaction that wrote the cell at address 3. -/
def txn_w3 : transaction :=
  ⟨[], [3], [], [(3, .int 5)]⟩

/-- A pool of three committing threads: the first holds the lock of cell 1 and is
about to lock cell 2; the second holds the lock of cell 2 and is about to lock
cell 3; the third holds the lock of cell 3 and has finished phase 1. -/
def pool_three : List Committer :=
  [⟨txn_w12, 1⟩, ⟨txn_w23, 1⟩, ⟨txn_w3, 1⟩]

/-! ## Two threads, each running one atomic block -/

/-- A thread running one iteration of an atomic block: what is left of the body,
its transaction object, and the boolean `commit_transaction` returned once the
body is over. -/
structure Thread where
  prog : Prog
  txn : transaction
  result : Option Bool

/-- One call of the thread against the atomic objects shared with the other
threads.  `read` takes its snapshot inside `clone`, under the mutex of the cell;
`write` and `async` touch the transaction object only; `commit_transaction`
holds the mutexes of all the cells of its working set from phase 1 to its
return, so each call is one step.  A thread whose commit has returned makes no
further call. -/
def Thread.step (th : Thread) (w : World) : Option (Thread × World) :=
  match th.result with
  | some _ => some (th, w)
  | none =>
    match th.prog with
    | .done =>
      match th.txn.commit_transaction w with
      | none => none
      | some (b, t1, w1) => some (⟨.done, t1, some b⟩, w1)
    | .abort => none
    | .read var k =>
      match th.txn.read w.cells var with
      | none => none
      | some (t1, s) => some (⟨k s, t1, none⟩, w)
    | .write var value k =>
      match th.txn.write var value with
      | none => none
      | some t1 => some (⟨k, t1, none⟩, w)
    | .async fut F k => some (⟨k, th.txn.async fut F, none⟩, w)
    | .direct var rhs k =>
      some (⟨k, th.txn, none⟩, { w with cells := atomic.write_direct w.cells var rhs })

theorem mapFind_orderedInsert (m : List (Ptr × Val)) (var k : Ptr) (v : Val)
    (h : mapFind m var = none) :
    mapFind (orderedInsert m var v) k = if k = var then some v else mapFind m k := by
  induction m with
  | nil => simp [orderedInsert, mapFind]
  | cons e m ih =>
    obtain ⟨k1, s⟩ := e
    simp only [mapFind] at h
    split at h
    · simp at h
    · rename_i hne
      simp only [orderedInsert]
      split
      · simp [mapFind]
      · simp only [mapFind, ih h]
        by_cases hk : k = k1
        · subst hk
          simp [Ne.symm hne]
        · simp [hk]

theorem mapFind_mapAssign (m : List (Ptr × Val)) (var k : Ptr) (v : Val) :
    mapFind (mapAssign m var v) k
      = if k = var then (mapFind m var).map (fun _ => v) else mapFind m k := by
  induction m with
  | nil => simp [mapAssign, mapFind]
  | cons e m ih =>
    obtain ⟨k1, s⟩ := e
    simp only [mapAssign]
    by_cases hv : var = k1
    · subst hv
      by_cases hk : k = var <;> simp [mapFind, hk]
    · simp only [hv, if_false, mapFind, ih]
      by_cases hk : k = k1
      · subst hk
        simp [Ne.symm hv]
      · simp [hk]

theorem mem_setInsert (s : List Ptr) (var k : Ptr) :
    k ∈ setInsert s var ↔ k = var ∨ k ∈ s := by
  induction s with
  | nil => simp [setInsert]
  | cons a s ih =>
    simp only [setInsert]
    split
    · simp
    · split
      · rename_i h
        subst h
        simp
      · simp only [List.mem_cons, ih]
        tauto

theorem mem_orderedInsert (m : List (Ptr × Val)) (var : Ptr) (v : Val) (e : Ptr × Val) :
    e ∈ orderedInsert m var v ↔ e = (var, v) ∨ e ∈ m := by
  induction m with
  | nil => simp [orderedInsert]
  | cons a m ih =>
    obtain ⟨k1, s⟩ := a
    simp only [orderedInsert]
    split
    · simp
    · simp only [List.mem_cons, ih]
      tauto

theorem keys_mapAssign (m : List (Ptr × Val)) (var : Ptr) (v : Val) :
    (mapAssign m var v).map Prod.fst = m.map Prod.fst := by
  induction m with
  | nil => simp [mapAssign]
  | cons a m ih =>
    obtain ⟨k1, s⟩ := a
    simp only [mapAssign]
    split <;> simp [ih]

/-! ## `atomic` -/

theorem atomic_eq_isSome_of_ty (a b : Val) (h : b.ty = a.ty) :
    ∃ r, atomic.eq a b = some r := by
  cases a <;> cases b <;> simp [atomic.eq, Val.ty] at h ⊢

theorem atomic_eq_self (a : Val) (h : atomic.selfEqual a = true) :
    atomic.eq a a = some true := by
  simpa [atomic.selfEqual] using h

theorem atomic_write_eq_some (a b d : Val) :
    atomic.write a b = some d ↔ b.ty = a.ty ∧ d = b := by
  cases a <;> cases b <;> simp [atomic.write, Val.ty, eq_comm]

theorem atomic_write_of_ty (a b : Val) (h : b.ty = a.ty) : atomic.write a b = some b :=
  (atomic_write_eq_some a b b).2 ⟨h, rfl⟩

/-! ## The phases of `commit_transaction` -/

namespace transaction

theorem acquireLocks_of_nonNull (m : List (Ptr × Val)) (h : ∀ e ∈ m, e.1 ≠ NULL) :
    acquireLocks m = some (m.map Prod.fst) := by
  induction m with
  | nil => rfl
  | cons a m ih =>
    obtain ⟨k1, s⟩ := a
    have h1 : k1 ≠ NULL := h (k1, s) (List.mem_cons_self _ _)
    have h2 := ih (fun e he => h e (List.mem_cons_of_mem _ he))
    simp [acquireLocks, h1, h2]

theorem validate_eq_false (cells : Cells) (rl : List (Ptr × Val))
    (h : validate cells rl = some false) :
    ∃ e ∈ rl, atomic.eq (cells e.1) e.2 = some false := by
  induction rl with
  | nil => simp [validate] at h
  | cons a rl ih =>
    obtain ⟨var, snap⟩ := a
    simp only [validate] at h
    split at h
    · cases h
    · split at h
      · cases h
      · rename_i he
        exact ⟨(var, snap), List.mem_cons_self _ _, he⟩
      · obtain ⟨e, he, hne⟩ := ih h
        exact ⟨e, List.mem_cons_of_mem _ he, hne⟩

theorem validate_of_typed (cells : Cells) (rl : List (Ptr × Val))
    (h : ∀ e ∈ rl, e.1 ≠ NULL ∧ e.2.ty = (cells e.1).ty) :
    validate cells rl
      = some (decide (∀ e ∈ rl, atomic.eq (cells e.1) e.2 = some true)) := by
  induction rl with
  | nil => simp [validate]
  | cons a rl ih =>
    obtain ⟨var, snap⟩ := a
    have h1 := h (var, snap) (List.mem_cons_self _ _)
    have h2 := ih (fun e he => h e (List.mem_cons_of_mem _ he))
    obtain ⟨r, hr⟩ := atomic_eq_isSome_of_ty _ _ h1.2
    simp only [validate, h1.1, if_false, hr]
    cases r with
    | true => simp [hr, h2]
    | false => simp [hr]

theorem applyWrites_spec (vars : List (Ptr × Val)) (ws : List Ptr) (cells cells1 : Cells)
    (h : applyWrites vars ws cells = some cells1) :
    (∀ var ∈ ws, mapFind vars var = some (cells1 var)) ∧
    (∀ var, var ∉ ws → cells1 var = cells var) ∧
    (∀ var, (cells1 var).ty = (cells var).ty) := by
  induction ws generalizing cells with
  | nil =>
    simp only [applyWrites, Option.some.injEq] at h
    subst h
    simp
  | cons a ws ih =>
    simp only [applyWrites] at h
    split at h
    · cases h
    · split at h
      · cases h
      · rename_i snap hf
        split at h
        · cases h
        · rename_i d hw
          obtain ⟨hty, hd⟩ := (atomic_write_eq_some _ _ _).1 hw
          subst hd
          obtain ⟨i1, i2, i3⟩ := ih _ h
          refine ⟨?_, ?_, ?_⟩
          · intro var hv
            rcases List.mem_cons.1 hv with hv | hv
            · subst hv
              by_cases hin : var ∈ ws
              · exact i1 var hin
              · rw [i2 var hin, hf]
                simp [setCell]
            · exact i1 var hv
          · intro var hv
            rw [List.mem_cons, not_or] at hv
            rw [i2 var hv.2]
            simp [setCell, hv.1]
          · intro var
            rw [i3 var]
            by_cases hv : var = a
            · subst hv
              simp [setCell, hty]
            · simp [setCell, hv]

theorem applyWrites_of_typed (vars : List (Ptr × Val)) (ws : List Ptr) (cells : Cells)
    (h : ∀ var ∈ ws, var ≠ NULL ∧ (mapFind vars var).map Val.ty = some (cells var).ty) :
    ∃ cells1, applyWrites vars ws cells = some cells1 := by
  induction ws generalizing cells with
  | nil => exact ⟨cells, rfl⟩
  | cons a ws ih =>
    obtain ⟨hn, hf⟩ := h a (List.mem_cons_self _ _)
    cases hm : mapFind vars a with
    | none => simp [hm] at hf
    | some snap =>
      simp only [hm, Option.map_some', Option.some.injEq] at hf
      simp only [applyWrites, hn, if_false, hm, atomic_write_of_ty _ _ hf]
      apply ih
      intro var hv
      obtain ⟨hn1, hf1⟩ := h var (List.mem_cons_of_mem _ hv)
      refine ⟨hn1, ?_⟩
      rw [hf1]
      by_cases hva : var = a
      · subst hva
        simp [setCell, hf]
      · simp [setCell, hva]

theorem dispatchAll_cells (q : List (Ptr × Cont)) (w : World) :
    (dispatchAll q w).cells = w.cells := by
  induction q generalizing w with
  | nil => rfl
  | cons a q ih =>
    obtain ⟨fut, F⟩ := a
    simp only [dispatchAll]
    split <;> simp [ih, hpx_async, setFuture]

theorem dispatchAll_dispatched (q : List (Ptr × Cont)) (w : World) :
    (dispatchAll q w).dispatched = w.dispatched ++ q.map Prod.snd := by
  induction q generalizing w with
  | nil => simp [dispatchAll]
  | cons a q ih =>
    obtain ⟨fut, F⟩ := a
    simp only [dispatchAll]
    split <;> simp [ih, hpx_async, setFuture]

theorem validateT_snd (cells : Cells) (rl : List (Ptr × Val)) :
    (validateT cells rl).2 = validate cells rl := by
  induction rl with
  | nil => rfl
  | cons a rl ih =>
    obtain ⟨var, snap⟩ := a
    simp only [validateT, validate]
    split
    · rfl
    · cases atomic.eq (cells var) snap with
      | none => rfl
      | some b =>
        cases b with
        | true => exact ih
        | false => rfl

theorem applyWritesT_snd (vars : List (Ptr × Val)) (ws : List Ptr) (cells : Cells) :
    (applyWritesT vars ws cells).2 = applyWrites vars ws cells := by
  induction ws generalizing cells with
  | nil => rfl
  | cons a ws ih =>
    simp only [applyWritesT, applyWrites]
    split
    · rfl
    · cases mapFind vars a with
      | none => rfl
      | some snap =>
        dsimp only
        cases atomic.write (cells a) snap with
        | none => rfl
        | some d => exact ih _

theorem dispatchAllT_snd (q : List (Ptr × Cont)) (w : World) :
    (dispatchAllT q w).2 = dispatchAll q w := by
  induction q generalizing w with
  | nil => rfl
  | cons a q ih =>
    obtain ⟨fut, F⟩ := a
    simp only [dispatchAllT, dispatchAll]
    split
    · exact ih _
    · exact ih _

/-- The result of `commit_transaction` in terms of the outcomes of its phases. -/
theorem commit_transaction_eq (t : transaction) (w : World) :
    t.commit_transaction w =
      match acquireLocks t.variables_ with
      | none => none
      | some _ =>
        match validate w.cells t.read_list with
        | none => none
        | some false => some (false, t.clear, w)
        | some true =>
          match applyWrites t.variables_ t.write_set w.cells with
          | none => none
          | some cells1 => some (true, t, dispatchAll t.async_list { w with cells := cells1 }) := by
  unfold commit_transaction commit_traced
  cases acquireLocks t.variables_ with
  | none => rfl
  | some locks =>
    simp only
    rw [← validateT_snd, ← applyWritesT_snd]
    rcases validateT w.cells t.read_list with ⟨ev2, _ | _ | _⟩
    · rfl
    · rfl
    · simp only
      rcases applyWritesT t.variables_ t.write_set w.cells with ⟨ev3, _ | cells1⟩
      · rfl
      · simp only [dispatchAllT_snd]

theorem commit_eq_false (t t1 : transaction) (w w1 : World)
    (h : t.commit_transaction w = some (false, t1, w1)) :
    t1 = t.clear ∧ w1 = w ∧ validate w.cells t.read_list = some false := by
  rw [commit_transaction_eq] at h
  split at h
  · cases h
  · split at h
    · cases h
    · rename_i hv
      simp only [Option.some.injEq, Prod.mk.injEq, true_and] at h
      exact ⟨h.1.symm, h.2.symm, hv⟩
    · split at h
      · cases h
      · simp at h

theorem commit_eq_true (t t1 : transaction) (w w1 : World)
    (h : t.commit_transaction w = some (true, t1, w1)) :
    t1 = t ∧ validate w.cells t.read_list = some true ∧
    ∃ cells1, applyWrites t.variables_ t.write_set w.cells = some cells1 ∧
      w1 = dispatchAll t.async_list { w with cells := cells1 } := by
  rw [commit_transaction_eq] at h
  split at h
  · cases h
  · split at h
    · cases h
    · simp at h
    · rename_i hv
      split at h
      · cases h
      · rename_i cells1 ha
        simp only [Option.some.injEq, Prod.mk.injEq, true_and] at h
        exact ⟨h.1.symm, hv, cells1, ha, h.2.symm⟩

theorem commit_of_wellFormed (t : transaction) (w : World) (hwf : t.WellFormed w.cells) :
    (∃ w1, t.commit_transaction w = some (true, t, w1) ∧
      ∀ e ∈ t.read_list, atomic.eq (w.cells e.1) e.2 = some true) ∨
    (t.commit_transaction w = some (false, t.clear, w) ∧
      ∃ e ∈ t.read_list, atomic.eq (w.cells e.1) e.2 = some false) := by
  obtain ⟨h1, h2, h3⟩ := hwf
  have hl := acquireLocks_of_nonNull _ h1
  have hv := validate_of_typed _ _ h2
  obtain ⟨cells1, ha⟩ := applyWrites_of_typed _ _ _ h3
  by_cases hall : ∀ e ∈ t.read_list, atomic.eq (w.cells e.1) e.2 = some true
  · left
    refine ⟨dispatchAll t.async_list { w with cells := cells1 }, ?_, hall⟩
    rw [decide_eq_true hall] at hv
    simp only [commit_transaction_eq, hl, hv, ha]
  · right
    rw [decide_eq_false hall] at hv
    have hc : t.commit_transaction w = some (false, t.clear, w) := by
      simp only [commit_transaction_eq, hl, hv]
    exact ⟨hc, validate_eq_false _ _ hv⟩

end transaction

/-! ## Commit: validation, write-back, dispatch -/

namespace transaction

theorem dispatchAll_futures_untouched (q : List (Ptr × Cont)) (w : World) (fut : Ptr)
    (h : ∀ e ∈ q, e.1 = NULL ∨ e.1 ≠ fut) :
    (dispatchAll q w).futures fut = w.futures fut := by
  induction q generalizing w with
  | nil => rfl
  | cons a q ih =>
    obtain ⟨f, F⟩ := a
    have h1 := h (f, F) (List.mem_cons_self _ _)
    have h2 : ∀ e ∈ q, e.1 = NULL ∨ e.1 ≠ fut := fun e he => h e (List.mem_cons_of_mem _ he)
    simp only [dispatchAll]
    split
    · rw [ih _ h2]
      rfl
    · rename_i hf
      rw [ih _ h2]
      have hne : fut ≠ f := by
        rcases h1 with h1 | h1
        · exact absurd h1 hf
        · exact fun hc => h1 hc.symm
      simp [setFuture, hpx_async, hne]

theorem dispatchAll_futures_bound (q : List (Ptr × Cont)) (w : World) (i : Nat)
    (hi : i < q.length) (hn : q[i].1 ≠ NULL)
    (hlast : ∀ j (hj : j < q.length), i < j → q[j].1 ≠ q[i].1) :
    (dispatchAll q w).futures q[i].1 = some (w.dispatched.length + i) := by
  induction q generalizing w i with
  | nil => simp at hi
  | cons a q ih =>
    obtain ⟨f, F⟩ := a
    cases i with
    | zero =>
      simp only [List.getElem_cons_zero] at hn hlast ⊢
      have h2 : ∀ e ∈ q, e.1 = NULL ∨ e.1 ≠ f := by
        intro e he
        obtain ⟨j, hj, rfl⟩ := List.getElem_of_mem he
        right
        have := hlast (j + 1) (by simpa using hj) (Nat.succ_pos _)
        simpa using this
      simp only [dispatchAll, hn, if_false]
      rw [dispatchAll_futures_untouched _ _ _ h2]
      simp [setFuture, hpx_async]
    | succ i =>
      simp only [List.getElem_cons_succ] at hn hlast ⊢
      have hi1 : i < q.length := by simpa using hi
      have hl1 : ∀ j (hj : j < q.length), i < j → q[j].1 ≠ q[i].1 := by
        intro j hj hij
        have := hlast (j + 1) (by simpa using hj) (by omega)
        simpa using this
      simp only [dispatchAll]
      split
      · rw [ih _ i hi1 hn hl1]
        simp [hpx_async]
        omega
      · rw [ih _ i hi1 hn hl1]
        simp [hpx_async, setFuture]
        omega

end transaction

theorem transaction.commit_cells_of_success (t t1 : transaction) (w w1 : World)
    (h : t.commit_transaction w = some (true, t1, w1)) :
    (∀ var ∈ t.write_set, mapFind t.variables_ var = some (w1.cells var)) ∧
    (∀ var, var ∉ t.write_set → w1.cells var = w.cells var) := by
  obtain ⟨_, _, cells1, ha, hw⟩ := transaction.commit_eq_true t t1 w w1 h
  obtain ⟨i1, i2, _⟩ := transaction.applyWrites_spec _ _ _ _ ha
  subst hw
  rw [transaction.dispatchAll_cells]
  exact ⟨i1, i2⟩

/-- C2: when `commit_transaction` returns success, every cell of the write set
holds the snapshot the working set had for it at commit time, and every other
cell (cells that were only read included) holds the value it had before. -/
theorem commit_success_cells (t t1 : transaction) (w w1 : World)
    (h : t.commit_transaction w = some (true, t1, w1)) :
    (∀ var ∈ t.write_set, mapFind t.variables_ var = some (w1.cells var)) ∧
    (∀ var, var ∉ t.write_set → w1.cells var = w.cells var) := by
  obtain ⟨_, _, cells1, happly, hw⟩ := transaction.commit_eq_true t t1 w w1 h
  obtain ⟨hwritten, hframe, _⟩ := transaction.applyWrites_spec _ _ _ _ happly
  subst hw
  rw [transaction.dispatchAll_cells]
  exact ⟨hwritten, hframe⟩

/-- C2, instance: committing `A_ = A_*A_ - B_` on `A = 4`, `B = 1`. -/
theorem commit_success_cells_witness :
    (txn_S1.commit_transaction world_A4_B1).map (fun r => (r.1, r.2.1, r.2.2.cells 1, r.2.2.cells 2))
      = some (true, txn_S1, .int 15, .int 1) ∧
    ((∀ var ∈ txn_S1.write_set,
        mapFind txn_S1.variables_ var = some ((setCell world_A4_B1.cells 1 (.int 15)) var)) ∧
     (∀ var, var ∉ txn_S1.write_set →
        (setCell world_A4_B1.cells 1 (.int 15)) var = world_A4_B1.cells var)) :=
  ⟨by decide,
   commit_success_cells txn_S1 txn_S1 world_A4_B1
     ⟨setCell world_A4_B1.cells 1 (.int 15), [], fun _ => none⟩ rfl⟩

/-- C3: when `commit_transaction` returns failure, no cell has changed, nothing
has been handed to the dispatcher and no future has been assigned. -/
theorem commit_failure_no_effect (t t1 : transaction) (w w1 : World)
    (h : t.commit_transaction w = some (false, t1, w1)) :
    (∀ var, w1.cells var = w.cells var) ∧
    w1.dispatched = w.dispatched ∧
    (∀ fut, w1.futures fut = w.futures fut) := by
  obtain ⟨_, hw, _⟩ := transaction.commit_eq_false t t1 w w1 h
  subst hw
  exact ⟨fun _ => rfl, rfl, fun _ => rfl⟩

/-- C3, instance: the transaction that read `A = 4` fails on the world where `A`
was set to 3, with a continuation bound to a future in its queue. -/
theorem commit_failure_no_effect_witness :
    txn_square_async.commit_transaction world_A3 = some (false, transaction.empty, world_A3) ∧
    ((∀ var, world_A3.cells var = world_A3.cells var) ∧
     world_A3.dispatched = world_A3.dispatched ∧
     (∀ fut, world_A3.futures fut = world_A3.futures fut)) :=
  ⟨rfl, commit_failure_no_effect txn_square_async transaction.empty world_A3 world_A3 rfl⟩

/-- C5: when `commit_transaction` returns success, the continuations handed to
the dispatcher during the commit are the async queue in enqueue order, each
once; the handle of entry `i` is the position of its dispatch; a non-null future
holds the handle of the last entry bound to it; futures bound by no entry are
unchanged. -/
theorem commit_success_dispatch (t t1 : transaction) (w w1 : World)
    (h : t.commit_transaction w = some (true, t1, w1)) :
    w1.dispatched = w.dispatched ++ t.async_list.map Prod.snd ∧
    (∀ i (hi : i < t.async_list.length),
      w1.dispatched[w.dispatched.length + i]? = some t.async_list[i].2 ∧
      (t.async_list[i].1 ≠ NULL →
        (∀ j (hj : j < t.async_list.length), i < j → t.async_list[j].1 ≠ t.async_list[i].1) →
        w1.futures t.async_list[i].1 = some (w.dispatched.length + i))) ∧
    (∀ fut, (∀ e ∈ t.async_list, e.1 = NULL ∨ e.1 ≠ fut) → w1.futures fut = w.futures fut) := by
  obtain ⟨_, _, cells1, _, hw⟩ := transaction.commit_eq_true t t1 w w1 h
  subst hw
  have hd := transaction.dispatchAll_dispatched t.async_list { w with cells := cells1 }
  refine ⟨hd, ?_, ?_⟩
  · intro i hi
    refine ⟨?_, fun hn hlast => ?_⟩
    · rw [hd]
      show (w.dispatched ++ t.async_list.map Prod.snd)[w.dispatched.length + i]? = _
      rw [List.getElem?_append_right (Nat.le_add_right _ _), Nat.add_sub_cancel_left,
        List.getElem?_map, List.getElem?_eq_getElem hi]
      rfl
    · exact transaction.dispatchAll_futures_bound t.async_list _ i hi hn hlast
  · intro fut hf
    exact transaction.dispatchAll_futures_untouched t.async_list _ fut hf

/-- C5, instance: three queued continuations, the first and third bound to the
future at address 5, the second fire-and-forget. -/
theorem commit_success_dispatch_witness :
    (txn_three_async.commit_transaction world_A4_B1).map
        (fun r => (r.1, r.2.2.dispatched, r.2.2.futures 5, r.2.2.futures 6))
      = some (true, [⟨0, []⟩, ⟨1, []⟩, ⟨2, []⟩], some 2, none) ∧
    (transaction.dispatchAll txn_three_async.async_list world_A4_B1).dispatched
      = world_A4_B1.dispatched ++ txn_three_async.async_list.map Prod.snd :=
  ⟨by decide,
   (commit_success_dispatch txn_three_async txn_three_async world_A4_B1
     (transaction.dispatchAll txn_three_async.async_list world_A4_B1) rfl).1⟩

/-! ## `read`, `write`, `async` -/

namespace transaction

theorem mem_mapAssign_key (m : List (Ptr × Val)) (var : Ptr) (v : Val) (e : Ptr × Val)
    (h : e ∈ mapAssign m var v) : ∃ e1 ∈ m, e1.1 = e.1 := by
  have h1 : e.1 ∈ (mapAssign m var v).map Prod.fst := List.mem_map_of_mem _ h
  rw [keys_mapAssign] at h1
  obtain ⟨e1, he1, heq⟩ := List.mem_map.1 h1
  exact ⟨e1, he1, heq⟩

theorem read_of_find (t : transaction) (cells : Cells) (var : Ptr) (s : Val)
    (hvar : var ≠ NULL) (h : mapFind t.variables_ var = some s) :
    t.read cells var = some (t, s) := by
  simp [read, hvar, h]

theorem read_spec (t t1 : transaction) (cells : Cells) (var : Ptr) (s : Val)
    (h : t.read cells var = some (t1, s)) :
    var ≠ NULL ∧
    t1.write_set = t.write_set ∧ t1.async_list = t.async_list ∧
    (∀ k, mapFind t1.variables_ k = if k = var then some s else mapFind t.variables_ k) ∧
    (∀ e ∈ t1.variables_, e.1 = var ∨ ∃ e1 ∈ t.variables_, e1.1 = e.1) ∧
    ((mapFind t.variables_ var = some s ∧ t1 = t) ∨
     (mapFind t.variables_ var = none ∧ s = cells var ∧
      t1.read_list = t.read_list ++ [(var, cells var)])) := by
  unfold read at h
  split at h
  · cases h
  · rename_i hvar
    refine ⟨hvar, ?_⟩
    split at h
    · rename_i hf
      simp only [atomic.clone, Option.some.injEq, Prod.mk.injEq] at h
      obtain ⟨ht, hs⟩ := h
      subst ht hs
      refine ⟨rfl, rfl, fun k => mapFind_orderedInsert _ _ _ _ hf, ?_, Or.inr ⟨hf, rfl, rfl⟩⟩
      intro e he
      rcases (mem_orderedInsert _ _ _ _).1 he with he | he
      · left
        rw [he]
      · exact Or.inr ⟨e, he, rfl⟩
    · rename_i snap hf
      simp only [Option.some.injEq, Prod.mk.injEq] at h
      obtain ⟨ht, hs⟩ := h
      subst ht hs
      refine ⟨rfl, rfl, ?_, fun e he => Or.inr ⟨e, he, rfl⟩, Or.inl ⟨hf, rfl⟩⟩
      intro k
      by_cases hk : k = var
      · subst hk
        simp [hf]
      · simp [hk]

theorem write_spec (t : transaction) (var : Ptr) (v : Val) (hvar : var ≠ NULL) :
    ∃ t1, t.write var v = some t1 ∧
      t1.read_list = t.read_list ∧ t1.async_list = t.async_list ∧
      t1.write_set = setInsert t.write_set var ∧
      (∀ k, mapFind t1.variables_ k = if k = var then some v else mapFind t.variables_ k) ∧
      (∀ e ∈ t1.variables_, e.1 = var ∨ ∃ e1 ∈ t.variables_, e1.1 = e.1) := by
  unfold write
  simp only [hvar, if_false, atomic.clone]
  cases hf : mapFind t.variables_ var with
  | none =>
    refine ⟨_, rfl, rfl, rfl, rfl, fun k => mapFind_orderedInsert _ _ _ _ hf, ?_⟩
    intro e he
    rcases (mem_orderedInsert _ _ _ _).1 he with he | he
    · left
      rw [he]
    · exact Or.inr ⟨e, he, rfl⟩
  | some snap =>
    refine ⟨_, rfl, rfl, rfl, rfl, ?_, ?_⟩
    · intro k
      simp only [mapFind_mapAssign, hf, Option.map_some']
    · intro e he
      exact Or.inr (mem_mapAssign_key _ _ _ _ he)

theorem write_ne_none (t t1 : transaction) (var : Ptr) (v : Val) (h : t.write var v = some t1) :
    var ≠ NULL := by
  intro hc
  simp [write, hc] at h

end transaction

/-- Effect of one call on the lookup of a variable that the call does not write. -/
theorem step_find_other (op : Op) (t t1 : transaction) (w w1 : World) (var : Ptr) (v : Val)
    (h : op.step t w = some (t1, w1)) (hw : op.writesTo var = false)
    (hf : mapFind t.variables_ var = some v) :
    mapFind t1.variables_ var = some v := by
  cases op with
  | read x =>
    simp only [Op.step] at h
    split at h
    · cases h
    · rename_i t2 s hr
      simp only [Option.some.injEq, Prod.mk.injEq] at h
      obtain ⟨rfl, rfl⟩ := h
      obtain ⟨_, _, _, hfind, _, hcase⟩ := transaction.read_spec _ _ _ _ _ hr
      rw [hfind]
      by_cases hx : var = x
      · subst hx
        rcases hcase with ⟨h1, _⟩ | ⟨h1, _⟩
        · rw [hf] at h1
          simp [h1]
        · rw [hf] at h1
          cases h1
      · simp [hx, hf]
  | write x value =>
    simp only [Op.step] at h
    split at h
    · cases h
    · rename_i t2 hwr
      simp only [Option.some.injEq, Prod.mk.injEq] at h
      obtain ⟨rfl, rfl⟩ := h
      obtain ⟨t3, h3, _, _, _, hfind, _⟩ :=
        transaction.write_spec t x value (transaction.write_ne_none _ _ _ _ hwr)
      rw [hwr] at h3
      cases h3
      rw [hfind]
      have hx : var ≠ x := by
        intro hc
        simp [Op.writesTo, hc] at hw
      simp [hx, hf]
  | async fut F =>
    simp only [Op.step, Option.some.injEq, Prod.mk.injEq] at h
    obtain ⟨rfl, rfl⟩ := h
    exact hf
  | direct x rhs =>
    simp only [Op.step, Option.some.injEq, Prod.mk.injEq] at h
    obtain ⟨rfl, rfl⟩ := h
    exact hf

theorem runOps_find_other (ops : List Op) (t t1 : transaction) (w w1 : World) (var : Ptr)
    (v : Val) (h : runOps ops t w = some (t1, w1))
    (hw : ∀ op ∈ ops, Op.writesTo var op = false)
    (hf : mapFind t.variables_ var = some v) :
    mapFind t1.variables_ var = some v := by
  induction ops generalizing t w with
  | nil =>
    simp only [runOps, Option.some.injEq, Prod.mk.injEq] at h
    obtain ⟨rfl, rfl⟩ := h
    exact hf
  | cons op ops ih =>
    simp only [runOps] at h
    split at h
    · cases h
    · rename_i t2 w2 hs
      exact ih t2 w2 h (fun o ho => hw o (List.mem_cons_of_mem _ ho))
        (step_find_other op t t2 w w2 var v hs (hw op (List.mem_cons_self _ _)) hf)

theorem transaction.clear_eq_empty (t : transaction) : t.clear = transaction.empty := rfl

/-- A body changes neither the dispatch log nor any future, and appends its
`async` calls to the queue. -/
theorem Prog.run_spec (p : Prog) (t t1 : transaction) (w w1 : World)
    (h : p.run t w = some (t1, w1)) :
    w1.dispatched = w.dispatched ∧ w1.futures = w.futures ∧
    t1.async_list = t.async_list ++ p.enqueued t w := by
  induction p generalizing t w with
  | done =>
    simp only [Prog.run, Option.some.injEq, Prod.mk.injEq] at h
    obtain ⟨rfl, rfl⟩ := h
    simp [Prog.enqueued]
  | abort => simp [Prog.run] at h
  | read var k ih =>
    simp only [Prog.run] at h
    split at h
    · cases h
    · rename_i t2 s hr
      obtain ⟨i1, i2, i3⟩ := ih s t2 w h
      obtain ⟨_, _, ha, _⟩ := transaction.read_spec _ _ _ _ _ hr
      refine ⟨i1, i2, ?_⟩
      simp only [Prog.enqueued, hr]
      rw [i3, ha]
  | write var value k ih =>
    simp only [Prog.run] at h
    split at h
    · cases h
    · rename_i t2 hwr
      obtain ⟨i1, i2, i3⟩ := ih t2 w h
      obtain ⟨t3, h3, _, ha, _⟩ :=
        transaction.write_spec t var value (transaction.write_ne_none _ _ _ _ hwr)
      rw [hwr] at h3
      cases h3
      refine ⟨i1, i2, ?_⟩
      simp only [Prog.enqueued, hwr]
      rw [i3, ha]
  | async fut F k ih =>
    simp only [Prog.run] at h
    obtain ⟨i1, i2, i3⟩ := ih _ w h
    refine ⟨i1, i2, ?_⟩
    simp only [Prog.enqueued]
    rw [i3]
    simp [transaction.async]
  | direct var rhs k ih =>
    simp only [Prog.run] at h
    obtain ⟨i1, i2, i3⟩ := ih t _ h
    exact ⟨i1, i2, by simpa [Prog.enqueued] using i3⟩

theorem attempt_eq_false (body : Prog) (t t1 : transaction) (w w1 : World)
    (h : attempt body t w = some (false, t1, w1)) :
    t1 = transaction.empty ∧ w1.dispatched = w.dispatched ∧ w1.futures = w.futures := by
  unfold attempt at h
  split at h
  · cases h
  · rename_i t2 w2 hr
    obtain ⟨i1, i2, _⟩ := Prog.run_spec _ _ _ _ _ hr
    obtain ⟨c1, c2, _⟩ := transaction.commit_eq_false _ _ _ _ h
    subst c2
    exact ⟨c1, i1, i2⟩

theorem attempt_eq_true (body : Prog) (t t1 : transaction) (w w1 : World)
    (h : attempt body t w = some (true, t1, w1)) :
    w1.dispatched = w.dispatched ++ (t.async_list ++ body.enqueued t w).map Prod.snd := by
  unfold attempt at h
  split at h
  · cases h
  · rename_i t2 w2 hr
    obtain ⟨i1, _, i3⟩ := Prog.run_spec _ _ _ _ _ hr
    obtain ⟨_, _, cells1, _, hw⟩ := transaction.commit_eq_true _ _ _ _ h
    subst hw
    rw [transaction.dispatchAll_dispatched, i3]
    simp [i1]

theorem failedAttempts_spec (body : Nat → Prog) (k n : Nat) (t tk : transaction)
    (w wk : World) (h : failedAttempts body k n t w = some (tk, wk)) :
    wk.dispatched = w.dispatched ∧ (tk = t ∨ tk = transaction.empty) ∧
    ∀ fuel, driverLoop body (k + fuel) n t w = driverLoop body fuel (n + k) tk wk := by
  induction k generalizing n t w with
  | zero =>
    simp only [failedAttempts, Option.some.injEq, Prod.mk.injEq] at h
    obtain ⟨rfl, rfl⟩ := h
    exact ⟨rfl, Or.inl rfl, fun fuel => by simp⟩
  | succ k ih =>
    simp only [failedAttempts] at h
    split at h
    · rename_i t1 w1 ha
      obtain ⟨i1, i2, i3⟩ := ih (n + 1) t1 w1 h
      obtain ⟨a1, a2, _⟩ := attempt_eq_false _ _ _ _ _ ha
      refine ⟨by rw [i1, a2], ?_, ?_⟩
      · right
        rcases i2 with i2 | i2
        · rw [i2, a1]
        · exact i2
      · intro fuel
        have : k + 1 + fuel = (k + fuel) + 1 := by omega
        simp only [this, driverLoop, ha]
        rw [i3 fuel]
        congr 1
        omega
    · cases h

/-- C6: in a run of the loop of `main` (one transaction object, default-constructed
before the loop) that makes `k` failed iterations and then a successful one, the
loop ends after `k + 1` iterations and the continuations handed to the dispatcher
over the whole run are exactly the `async` calls of the successful iteration, in
order, each once. -/
theorem retry_dispatches_last_attempt_only (body : Nat → Prog) (k : Nat) (w0 wk w1 : World)
    (tk t1 : transaction)
    (hfail : failedAttempts body k 0 transaction.empty w0 = some (tk, wk))
    (hsucc : attempt (body k) tk wk = some (true, t1, w1)) :
    driver body (k + 1) w0 = some (k + 1, t1, w1) ∧
    wk.dispatched = w0.dispatched ∧
    w1.dispatched = w0.dispatched ++ ((body k).enqueued tk wk).map Prod.snd := by
  obtain ⟨f1, f2, f3⟩ := failedAttempts_spec body k 0 _ _ _ _ hfail
  have htk : tk = transaction.empty := by
    rcases f2 with f2 | f2 <;> exact f2
  refine ⟨?_, f1, ?_⟩
  · unfold driver
    rw [f3 1]
    simp [driverLoop, hsucc]
  · rw [attempt_eq_true _ _ _ _ _ hsucc, f1, htk]
    simp [transaction.empty]

/-- C6, instance: the first iteration enqueues continuation 0 and fails because
`A` was overwritten, the second enqueues continuation 1 and commits; only
continuation 1 is dispatched. -/
theorem retry_dispatches_last_attempt_only_witness :
    (driver loop_conflict_async 2 world_A4_B1).map
        (fun r => (r.1, r.2.1, r.2.2.cells 1, r.2.2.dispatched, r.2.2.futures 5))
      = some (2, ⟨[(1, .int 3)], [], [(5, ⟨1, []⟩)], [(1, .int 3)]⟩, .int 3, [⟨1, []⟩], some 0) ∧
    (loop_conflict_async 0).enqueued transaction.empty world_A4_B1 = [(5, ⟨0, []⟩)] ∧
    (driver loop_conflict_async (1 + 1) world_A4_B1
      = some (1 + 1, ⟨[(1, .int 3)], [], [(5, ⟨1, []⟩)], [(1, .int 3)]⟩,
          transaction.dispatchAll [(5, ⟨1, []⟩)] world_A4_then_3) ∧
     world_A4_then_3.dispatched = world_A4_B1.dispatched ∧
     (transaction.dispatchAll [(5, ⟨1, []⟩)] world_A4_then_3).dispatched
        = world_A4_B1.dispatched ++
          ((loop_conflict_async 1).enqueued transaction.empty world_A4_then_3).map Prod.snd) :=
  ⟨by decide, by decide,
   retry_dispatches_last_attempt_only loop_conflict_async 1 world_A4_B1 world_A4_then_3
     (transaction.dispatchAll [(5, ⟨1, []⟩)] world_A4_then_3)
     transaction.empty ⟨[(1, .int 3)], [], [(5, ⟨1, []⟩)], [(1, .int 3)]⟩ rfl rfl⟩

/-- C8: a failed `commit_transaction` leaves the transaction equal to a
default-constructed one (all four containers empty); hence the loop of `main`,
which uses one transaction object for all iterations, returns what the specified
driver returns, which constructs a fresh transaction in every iteration. -/
theorem failed_commit_clears_so_reuse_is_fresh :
    (∀ (t t1 : transaction) (w w1 : World), t.commit_transaction w = some (false, t1, w1) →
      t1 = transaction.empty ∧ t1.variables_ = [] ∧ t1.read_list = [] ∧
      t1.write_set = [] ∧ t1.async_list = []) ∧
    (∀ (body : Nat → Prog) (fuel : Nat) (w : World),
      driver body fuel w = driverSpec body fuel w) := by
  constructor
  · intro t t1 w w1 h
    obtain ⟨c1, _, _⟩ := transaction.commit_eq_false _ _ _ _ h
    subst c1
    exact ⟨rfl, rfl, rfl, rfl, rfl⟩
  · intro body fuel w
    unfold driver driverSpec
    generalize 0 = n
    induction fuel generalizing n w with
    | zero => rfl
    | succ fuel ih =>
      simp only [driverLoop, driverSpecLoop]
      cases ha : attempt (body n) transaction.empty w with
      | none => rfl
      | some r =>
        obtain ⟨b, t1, w1⟩ := r
        cases b with
        | true => rfl
        | false =>
          obtain ⟨a1, _, _⟩ := attempt_eq_false _ _ _ _ _ ha
          subst a1
          exact ih _ _

/-- C8, instance: the failed commit of the forced-conflict block, and the two
drivers on that block. -/
theorem failed_commit_clears_so_reuse_is_fresh_witness :
    txn_square_async.commit_transaction world_A3 = some (false, transaction.empty, world_A3) ∧
    (transaction.empty = transaction.empty ∧ transaction.empty.variables_ = [] ∧
      transaction.empty.read_list = [] ∧ transaction.empty.write_set = [] ∧
      transaction.empty.async_list = []) ∧
    driver (loop_S3 1 3) 5 world_A4_B1 = driverSpec (loop_S3 1 3) 5 world_A4_B1 :=
  ⟨rfl,
   failed_commit_clears_so_reuse_is_fresh.1 txn_square_async transaction.empty
     world_A3 world_A3 rfl,
   failed_commit_clears_so_reuse_is_fresh.2 (loop_S3 1 3) 5 world_A4_B1⟩

/-! ## Invariants of an attempt -/

theorem transaction.read_isSome (t : transaction) (cells : Cells) (var : Ptr)
    (hvar : var ≠ NULL) : ∃ t1 s, t.read cells var = some (t1, s) := by
  unfold transaction.read
  simp only [hvar, if_false]
  cases mapFind t.variables_ var with
  | none => exact ⟨_, _, rfl⟩
  | some s => exact ⟨_, _, rfl⟩

/-- An attempt whose calls name no null variable runs to its end. -/
theorem runOps_total (ops : List Op) (t : transaction) (w : World)
    (hnn : ∀ op ∈ ops, op.nonNull = true) : ∃ t1 w1, runOps ops t w = some (t1, w1) := by
  induction ops generalizing t w with
  | nil => exact ⟨t, w, rfl⟩
  | cons op ops ih =>
    have h1 := hnn op (List.mem_cons_self _ _)
    have h2 : ∀ o ∈ ops, o.nonNull = true := fun o ho => hnn o (List.mem_cons_of_mem _ ho)
    have hs : ∃ t2 w2, op.step t w = some (t2, w2) := by
      cases op with
      | read x =>
        have hx : x ≠ NULL := by simpa [Op.nonNull] using h1
        obtain ⟨t2, s, hr⟩ := transaction.read_isSome t w.cells x hx
        exact ⟨t2, w, by simp [Op.step, hr]⟩
      | write x value =>
        have hx : x ≠ NULL := by simpa [Op.nonNull] using h1
        obtain ⟨t2, hw, _⟩ := transaction.write_spec t x value hx
        exact ⟨t2, w, by simp [Op.step, hw]⟩
      | async fut F => exact ⟨_, _, rfl⟩
      | direct x rhs => exact ⟨_, _, rfl⟩
    obtain ⟨t2, w2, hs⟩ := hs
    obtain ⟨t1, w1, hr⟩ := ih t2 w2 h2
    exact ⟨t1, w1, by simp [runOps, hs, hr]⟩

/-- One call keeps the part of well-formedness that concerns the variable map
and the write set, when a `write` passes a snapshot of the type of its cell. -/
theorem step_writes_ready (cellsT : Cells) (op : Op) (t t1 : transaction) (w w1 : World)
    (h : op.step t w = some (t1, w1)) (hty : op.typed cellsT = true)
    (hk : ∀ e ∈ t.variables_, e.1 ≠ NULL)
    (hw : ∀ c ∈ t.write_set,
      c ≠ NULL ∧ (mapFind t.variables_ c).map Val.ty = some (cellsT c).ty) :
    (∀ e ∈ t1.variables_, e.1 ≠ NULL) ∧
    (∀ c ∈ t1.write_set,
      c ≠ NULL ∧ (mapFind t1.variables_ c).map Val.ty = some (cellsT c).ty) := by
  cases op with
  | read x =>
    simp only [Op.step] at h
    split at h
    · cases h
    · rename_i t2 s hr
      simp only [Option.some.injEq, Prod.mk.injEq] at h
      obtain ⟨rfl, rfl⟩ := h
      obtain ⟨hx, hws, _, hfind, hkeys, hcase⟩ := transaction.read_spec _ _ _ _ _ hr
      refine ⟨?_, ?_⟩
      · intro e he
        rcases hkeys e he with h1 | ⟨e1, he1, h1⟩
        · rw [h1]
          exact hx
        · rw [← h1]
          exact hk e1 he1
      · intro c hc
        rw [hws] at hc
        obtain ⟨hc1, hc2⟩ := hw c hc
        refine ⟨hc1, ?_⟩
        rcases hcase with ⟨_, h2⟩ | ⟨h1, _⟩
        · rw [h2]
          exact hc2
        · rw [hfind]
          by_cases hcx : c = x
          · subst hcx
            rw [h1] at hc2
            simp at hc2
          · simp [hcx, hc2]
  | write x value =>
    simp only [Op.step] at h
    split at h
    · cases h
    · rename_i t2 hwr
      simp only [Option.some.injEq, Prod.mk.injEq] at h
      obtain ⟨rfl, rfl⟩ := h
      have hx := transaction.write_ne_none _ _ _ _ hwr
      obtain ⟨t3, h3, _, _, hws, hfind, hkeys⟩ := transaction.write_spec t x value hx
      rw [hwr] at h3
      cases h3
      refine ⟨?_, ?_⟩
      · intro e he
        rcases hkeys e he with h1 | ⟨e1, he1, h1⟩
        · rw [h1]
          exact hx
        · rw [← h1]
          exact hk e1 he1
      · intro c hc
        rw [hws, mem_setInsert] at hc
        rw [hfind]
        by_cases hcx : c = x
        · subst hcx
          refine ⟨hx, ?_⟩
          have : value.ty = (cellsT c).ty := by simpa [Op.typed] using hty
          simp [this]
        · rcases hc with hc | hc
          · exact absurd hc hcx
          · simpa [hcx] using hw c hc
  | async fut F =>
    simp only [Op.step, Option.some.injEq, Prod.mk.injEq] at h
    obtain ⟨rfl, rfl⟩ := h
    exact ⟨hk, hw⟩
  | direct x rhs =>
    simp only [Op.step, Option.some.injEq, Prod.mk.injEq] at h
    obtain ⟨rfl, rfl⟩ := h
    exact ⟨hk, hw⟩

theorem runOps_writes_ready (cellsT : Cells) (ops : List Op) (t t1 : transaction)
    (w w1 : World) (h : runOps ops t w = some (t1, w1))
    (hty : ∀ op ∈ ops, op.typed cellsT = true)
    (hk : ∀ e ∈ t.variables_, e.1 ≠ NULL)
    (hw : ∀ c ∈ t.write_set,
      c ≠ NULL ∧ (mapFind t.variables_ c).map Val.ty = some (cellsT c).ty) :
    (∀ e ∈ t1.variables_, e.1 ≠ NULL) ∧
    (∀ c ∈ t1.write_set,
      c ≠ NULL ∧ (mapFind t1.variables_ c).map Val.ty = some (cellsT c).ty) := by
  induction ops generalizing t w with
  | nil =>
    simp only [runOps, Option.some.injEq, Prod.mk.injEq] at h
    obtain ⟨rfl, rfl⟩ := h
    exact ⟨hk, hw⟩
  | cons op ops ih =>
    simp only [runOps] at h
    split at h
    · cases h
    · rename_i t2 w2 hs
      obtain ⟨i1, i2⟩ := step_writes_ready cellsT op t t2 w w2 hs
        (hty op (List.mem_cons_self _ _)) hk hw
      exact ih t2 w2 h (fun o ho => hty o (List.mem_cons_of_mem _ ho)) i1 i2

/-- Without calls from outside, the cells stay as they are and every read-log
entry is the live value of its cell. -/
theorem runOps_uncontended (ops : List Op) (t t1 : transaction) (w w1 : World)
    (h : runOps ops t w = some (t1, w1)) (hd : ∀ op ∈ ops, op.isDirect = false)
    (hr : ∀ e ∈ t.read_list, e.1 ≠ NULL ∧ e.2 = w.cells e.1) :
    w1 = w ∧ ∀ e ∈ t1.read_list, e.1 ≠ NULL ∧ e.2 = w.cells e.1 := by
  induction ops generalizing t with
  | nil =>
    simp only [runOps, Option.some.injEq, Prod.mk.injEq] at h
    obtain ⟨rfl, rfl⟩ := h
    exact ⟨rfl, hr⟩
  | cons op ops ih =>
    have hd2 : ∀ o ∈ ops, o.isDirect = false := fun o ho => hd o (List.mem_cons_of_mem _ ho)
    have hd1 := hd op (List.mem_cons_self _ _)
    simp only [runOps] at h
    split at h
    · cases h
    · rename_i t2 w2 hs
      cases op with
      | read x =>
        simp only [Op.step] at hs
        split at hs
        · cases hs
        · rename_i t3 s hrd
          simp only [Option.some.injEq, Prod.mk.injEq] at hs
          obtain ⟨rfl, rfl⟩ := hs
          obtain ⟨hx, _, _, _, _, hcase⟩ := transaction.read_spec _ _ _ _ _ hrd
          refine ih t3 h hd2 ?_
          rcases hcase with ⟨_, h2⟩ | ⟨_, _, h3⟩
          · rw [h2]
            exact hr
          · rw [h3]
            intro e he
            rcases List.mem_append.1 he with he | he
            · exact hr e he
            · simp only [List.mem_singleton] at he
              subst he
              exact ⟨hx, rfl⟩
      | write x value =>
        simp only [Op.step] at hs
        split at hs
        · cases hs
        · rename_i t3 hwr
          simp only [Option.some.injEq, Prod.mk.injEq] at hs
          obtain ⟨rfl, rfl⟩ := hs
          obtain ⟨t4, h4, hrl, _⟩ :=
            transaction.write_spec t x value (transaction.write_ne_none _ _ _ _ hwr)
          rw [hwr] at h4
          cases h4
          exact ih t3 h hd2 (by rw [hrl]; exact hr)
      | async fut F =>
        simp only [Op.step, Option.some.injEq, Prod.mk.injEq] at hs
        obtain ⟨rfl, rfl⟩ := hs
        exact ih _ h hd2 hr
      | direct x rhs => simp [Op.isDirect] at hd1

/-- When every read names a variable already in the map, no read is recorded. -/
theorem runOps_blind (ops : List Op) (seen : List Ptr) (t t1 : transaction) (w w1 : World)
    (h : runOps ops t w = some (t1, w1)) (hb : firstAccessIsWrite seen ops = true)
    (hs : ∀ c ∈ seen, ∃ v, mapFind t.variables_ c = some v) :
    t1.read_list = t.read_list := by
  induction ops generalizing seen t w with
  | nil =>
    simp only [runOps, Option.some.injEq, Prod.mk.injEq] at h
    obtain ⟨rfl, rfl⟩ := h
    rfl
  | cons op ops ih =>
    simp only [runOps] at h
    split at h
    · cases h
    · rename_i t2 w2 hst
      cases op with
      | read x =>
        simp only [firstAccessIsWrite, Bool.and_eq_true, decide_eq_true_eq] at hb
        simp only [Op.step] at hst
        split at hst
        · cases hst
        · rename_i t3 s hrd
          simp only [Option.some.injEq, Prod.mk.injEq] at hst
          obtain ⟨rfl, rfl⟩ := hst
          obtain ⟨_, _, _, _, _, hcase⟩ := transaction.read_spec _ _ _ _ _ hrd
          obtain ⟨v, hv⟩ := hs x hb.1
          rcases hcase with ⟨_, h2⟩ | ⟨h1, _⟩
          · subst h2
            exact ih seen _ _ h hb.2 hs
          · rw [hv] at h1
            cases h1
      | write x value =>
        simp only [firstAccessIsWrite] at hb
        simp only [Op.step] at hst
        split at hst
        · cases hst
        · rename_i t3 hwr
          simp only [Option.some.injEq, Prod.mk.injEq] at hst
          obtain ⟨rfl, rfl⟩ := hst
          obtain ⟨t4, h4, hrl, _, _, hfind, _⟩ :=
            transaction.write_spec t x value (transaction.write_ne_none _ _ _ _ hwr)
          rw [hwr] at h4
          cases h4
          rw [← hrl]
          refine ih (x :: seen) _ _ h hb ?_
          intro c hc
          rw [hfind]
          by_cases hcx : c = x
          · exact ⟨value, by simp [hcx]⟩
          · rcases List.mem_cons.1 hc with hc | hc
            · exact absurd hc hcx
            · simpa [hcx] using hs c hc
      | async fut F =>
        simp only [firstAccessIsWrite] at hb
        simp only [Op.step, Option.some.injEq, Prod.mk.injEq] at hst
        obtain ⟨rfl, rfl⟩ := hst
        exact ih seen (t.async fut F) _ h hb hs
      | direct x rhs =>
        simp only [firstAccessIsWrite] at hb
        simp only [Op.step, Option.some.injEq, Prod.mk.injEq] at hst
        obtain ⟨rfl, rfl⟩ := hst
        exact ih seen _ _ h hb hs

theorem step_write_set_mono (op : Op) (t t1 : transaction) (w w1 : World) (c : Ptr)
    (h : op.step t w = some (t1, w1)) (hc : c ∈ t.write_set) : c ∈ t1.write_set := by
  cases op with
  | read x =>
    simp only [Op.step] at h
    split at h
    · cases h
    · rename_i t2 s hr
      simp only [Option.some.injEq, Prod.mk.injEq] at h
      obtain ⟨rfl, rfl⟩ := h
      obtain ⟨_, hws, _⟩ := transaction.read_spec _ _ _ _ _ hr
      rw [hws]
      exact hc
  | write x value =>
    simp only [Op.step] at h
    split at h
    · cases h
    · rename_i t2 hwr
      simp only [Option.some.injEq, Prod.mk.injEq] at h
      obtain ⟨rfl, rfl⟩ := h
      obtain ⟨t3, h3, _, _, hws, _⟩ :=
        transaction.write_spec t x value (transaction.write_ne_none _ _ _ _ hwr)
      rw [hwr] at h3
      cases h3
      rw [hws, mem_setInsert]
      exact Or.inr hc
  | async fut F =>
    simp only [Op.step, Option.some.injEq, Prod.mk.injEq] at h
    obtain ⟨rfl, rfl⟩ := h
    exact hc
  | direct x rhs =>
    simp only [Op.step, Option.some.injEq, Prod.mk.injEq] at h
    obtain ⟨rfl, rfl⟩ := h
    exact hc

theorem runOps_write_set_mono (ops : List Op) (t t1 : transaction) (w w1 : World) (c : Ptr)
    (h : runOps ops t w = some (t1, w1)) (hc : c ∈ t.write_set) : c ∈ t1.write_set := by
  induction ops generalizing t w with
  | nil =>
    simp only [runOps, Option.some.injEq, Prod.mk.injEq] at h
    obtain ⟨rfl, rfl⟩ := h
    exact hc
  | cons op ops ih =>
    simp only [runOps] at h
    split at h
    · cases h
    · rename_i t2 w2 hs
      exact ih t2 w2 h (step_write_set_mono op t t2 w w2 c hs hc)

theorem lastWrite_eq_none (ops : List Op) (c : Ptr) (h : lastWrite ops c = none) :
    ∀ op ∈ ops, Op.writesTo c op = false := by
  induction ops with
  | nil => simp
  | cons op ops ih =>
    simp only [lastWrite] at h
    split at h
    · cases h
    · rename_i hl
      intro o ho
      rcases List.mem_cons.1 ho with ho | ho
      · subst ho
        cases o with
        | write x value =>
          simp only at h
          split at h
          · cases h
          · rename_i hx
            simpa [Op.writesTo] using hx
        | read x => rfl
        | async fut F => rfl
        | direct x rhs => rfl
      · exact ih hl o ho

/-- At the end of an attempt the map holds, for each written variable, the value
written last, and the variable is in the write set. -/
theorem runOps_lastWrite (ops : List Op) (t t1 : transaction) (w w1 : World) (c : Ptr)
    (v : Val) (h : runOps ops t w = some (t1, w1)) (hl : lastWrite ops c = some v) :
    mapFind t1.variables_ c = some v ∧ c ∈ t1.write_set := by
  induction ops generalizing t w with
  | nil => simp [lastWrite] at hl
  | cons op ops ih =>
    simp only [runOps] at h
    split at h
    · cases h
    · rename_i t2 w2 hs
      simp only [lastWrite] at hl
      split at hl
      · rename_i v1 hv1
        cases hl
        exact ih t2 w2 h hv1
      · rename_i hnone
        cases op with
        | write x value =>
          simp only at hl
          split at hl
          · rename_i hx
            cases hl
            subst hx
            simp only [Op.step] at hs
            split at hs
            · cases hs
            · rename_i t3 hwr
              simp only [Option.some.injEq, Prod.mk.injEq] at hs
              obtain ⟨rfl, rfl⟩ := hs
              obtain ⟨t4, h4, _, _, hws, hfind, _⟩ :=
                transaction.write_spec t x v (transaction.write_ne_none _ _ _ _ hwr)
              rw [hwr] at h4
              cases h4
              refine ⟨runOps_find_other ops t3 t1 w w1 x v h
                (lastWrite_eq_none ops x hnone) (by simp [hfind]), ?_⟩
              exact runOps_write_set_mono ops t3 t1 w w1 x h
                (by rw [hws, mem_setInsert]; exact Or.inl rfl)
          · cases hl
        | read x => simp at hl
        | async fut F => simp at hl
        | direct x rhs => simp at hl

/-! ## Blind writes, uncontended attempts, the blocks of `main` -/

theorem wrapInt_of_inIntRange (x : Int) (h : inIntRange x) : wrapInt x = x := by
  unfold inIntRange INT_BITS at h
  unfold wrapInt INT_BITS
  norm_num at h ⊢
  omega

theorem run_body_S1 (A B : Ptr) (a b : Int) (w : World) (hA : A ≠ NULL) (hB : B ≠ NULL)
    (hAB : A ≠ B) (ha : w.cells A = .int a) (hb : w.cells B = .int b) :
    attempt (body_S1 A B) transaction.empty w
      = some (true,
          ⟨[(A, .int a), (B, .int b)], [A], [],
            mapAssign (orderedInsert [(A, .int a)] B (.int b)) A
              (.int (intSub (intMul a a) b))⟩,
          { w with cells := setCell w.cells A (.int (intSub (intMul a a) b)) }) := by
  have hBA : B ≠ A := Ne.symm hAB
  by_cases hlt : B < A <;>
  simp [attempt, body_S1, local_atomic.toInt, local_atomic.assignInt, Prog.run,
    transaction.read, transaction.write, transaction.empty, mapFind, orderedInsert, mapAssign,
    setInsert, atomic.clone, hA, hB, hAB, hBA, ha, hb, hlt, transaction.commit_transaction_eq,
    transaction.acquireLocks, transaction.validate, transaction.applyWrites,
    transaction.dispatchAll, atomic.eq, atomic.write]

theorem run_body_S3_fail (A : Ptr) (a v : Int) (w : World) (hA : A ≠ NULL)
    (ha : w.cells A = .int a) (hne : v ≠ a) :
    attempt (body_S3 A v true) transaction.empty w
      = some (false, transaction.empty,
          { w with cells := atomic.write_direct w.cells A (.int v) }) := by
  simp [attempt, body_S3, local_atomic.toInt, local_atomic.assignInt, Prog.run,
    transaction.read, transaction.write, transaction.empty, mapFind, orderedInsert, mapAssign,
    setInsert, atomic.clone, hA, ha, hne, transaction.commit_transaction_eq,
    transaction.acquireLocks, transaction.validate, atomic.eq, atomic.write_direct, setCell,
    transaction.clear]

theorem run_body_S3_pass (A : Ptr) (v : Int) (w : World) (hA : A ≠ NULL)
    (ha : w.cells A = .int v) :
    attempt (body_S3 A v false) transaction.empty w
      = some (true, ⟨[(A, .int v)], [A], [], [(A, .int (intMul v v))]⟩,
          { w with cells := setCell w.cells A (.int (intMul v v)) }) := by
  simp [attempt, body_S3, local_atomic.toInt, local_atomic.assignInt, Prog.run,
    transaction.read, transaction.write, transaction.empty, mapFind, orderedInsert, mapAssign,
    setInsert, atomic.clone, hA, ha, transaction.commit_transaction_eq,
    transaction.acquireLocks, transaction.validate, transaction.applyWrites,
    transaction.dispatchAll, atomic.eq, atomic.write]

theorem Prog.run_ofOps (ops : List Op) (t : transaction) (w : World) :
    (Prog.ofOps ops).run t w = runOps ops t w := by
  induction ops generalizing t w with
  | nil => rfl
  | cons op ops ih =>
    cases op with
    | read x =>
      simp only [Prog.ofOps, Prog.run, runOps, Op.step]
      cases t.read w.cells x with
      | none => rfl
      | some r => exact ih r.1 w
    | write x value =>
      simp only [Prog.ofOps, Prog.run, runOps, Op.step]
      cases t.write x value with
      | none => rfl
      | some t1 => exact ih t1 w
    | async fut F =>
      simp only [Prog.ofOps, Prog.run, runOps, Op.step]
      exact ih _ _
    | direct x rhs =>
      simp only [Prog.ofOps, Prog.run, runOps, Op.step]
      exact ih _ _

theorem driver_first_success (body : Nat → Prog) (fuel : Nat) (w w1 : World)
    (t1 : transaction) (h : attempt (body 0) transaction.empty w = some (true, t1, w1)) :
    driver body (fuel + 1) w = some (1, t1, w1) := by
  simp only [driver, driverLoop, h]

/-- The second block of `main` on `A = 4`, `B = 1` with `IO` at address 3: one
iteration, `A = 15`, one continuation dispatched, which captured 16, and `IO`
holds its handle. -/
theorem main_S2_result :
    (driver (fun _ => body_S2 1 2 3) 1 world_A4_B1).map
        (fun r => (r.1, r.2.2.cells 1, r.2.2.cells 2, r.2.2.dispatched, r.2.2.futures 3))
      = some (1, .int 15, .int 1, [⟨0, [16]⟩], some 0) := by
  decide

/-- C7 (amended): in an attempt on a default-constructed transaction in which every
touched (non-null) cell is first touched by a write, the read log is empty at
commit; if every written snapshot has the element type of its cell, commit returns
success whatever the live values of the cells are, and afterwards each written
cell holds the value written to it last. -/
theorem blind_writes_commit (ops : List Op) (w : World)
    (hblind : firstAccessIsWrite [] ops = true)
    (hnn : ∀ op ∈ ops, op.nonNull = true) :
    ∃ t1 w1, runOps ops transaction.empty w = some (t1, w1) ∧ t1.read_list = [] ∧
      ∀ w2 : World, (∀ op ∈ ops, op.typed w2.cells = true) →
        ∃ w3, t1.commit_transaction w2 = some (true, t1, w3) ∧
          ∀ var v, lastWrite ops var = some v → w3.cells var = v := by
  obtain ⟨t1, w1, hrun⟩ := runOps_total ops transaction.empty w hnn
  have hrl : t1.read_list = [] :=
    runOps_blind ops [] _ _ _ _ hrun hblind (by simp)
  refine ⟨t1, w1, hrun, hrl, ?_⟩
  intro w2 hty
  obtain ⟨k1, k2⟩ := runOps_writes_ready w2.cells ops _ _ _ _ hrun hty
    (by simp [transaction.empty]) (by simp [transaction.empty])
  have hwf : t1.WellFormed w2.cells := ⟨k1, by simp [hrl], k2⟩
  rcases transaction.commit_of_wellFormed t1 w2 hwf with ⟨w3, hc, _⟩ | ⟨_, e, he, _⟩
  · refine ⟨w3, hc, ?_⟩
    intro var v hl
    obtain ⟨l1, l2⟩ := runOps_lastWrite ops _ _ _ _ var v hrun hl
    have := (transaction.commit_cells_of_success t1 t1 w2 w3 hc).1 var l2
    rw [l1] at this
    exact (Option.some.inj this).symm
  · rw [hrl] at he
    cases he

/-- C7, instance: `A` is written, read back and written again; the commit
succeeds on a world where `A` holds 3 and leaves `A = 8`. -/
theorem blind_writes_commit_witness :
    firstAccessIsWrite [] ops_blind = true ∧ (∀ op ∈ ops_blind, op.nonNull = true) ∧
    (∀ op ∈ ops_blind, op.typed world_A3.cells = true) ∧
    ((runOps ops_blind transaction.empty world_A4_B1).bind
        (fun r => (r.1.commit_transaction world_A3).map
          (fun c => (c.1, r.1.read_list, c.2.2.cells 1))))
      = some (true, [], .int 8) ∧
    ∃ t1 w1, runOps ops_blind transaction.empty world_A4_B1 = some (t1, w1) ∧
      t1.read_list = [] ∧
      ∀ w2 : World, (∀ op ∈ ops_blind, op.typed w2.cells = true) →
        ∃ w3, t1.commit_transaction w2 = some (true, t1, w3) ∧
          ∀ var v, lastWrite ops_blind var = some v → w3.cells var = v :=
  ⟨by decide, by decide, by decide, by decide,
   blind_writes_commit ops_blind world_A4_B1 (by decide) (by decide)⟩

/-- C7 as stated fails: the attempt whose only call writes an atomic vector to
the `atomic<int>` at address 1 touches that cell first by a write and has an
empty read log, and its commit aborts instead of returning success. -/
theorem blind_mistyped_write_aborts :
    firstAccessIsWrite [] ops_mistyped = true ∧
    (∀ op ∈ ops_mistyped, op.nonNull = true) ∧
    (runOps ops_mistyped transaction.empty world_A4_B1).map (fun r => r.1)
      = some txn_mistyped ∧
    txn_mistyped.read_list = [] ∧
    txn_mistyped.commit_transaction world_A4_B1 = none ∧
    ¬ ∃ r, txn_mistyped.commit_transaction world_A4_B1 = some (true, r) := by
  have hc : txn_mistyped.commit_transaction world_A4_B1 = none := rfl
  refine ⟨by decide, by decide, by decide, rfl, hc, ?_⟩
  rintro ⟨r, hr⟩
  rw [hc] at hr
  cases hr

/-- Every entry of the read log was there before or was logged by a `read` call
of the attempt. -/
theorem runOps_logged_reads (ops : List Op) (t t1 : transaction) (w w1 : World)
    (h : runOps ops t w = some (t1, w1)) :
    ∀ e ∈ t1.read_list, e ∈ t.read_list ∨ Op.read e.1 ∈ ops := by
  induction ops generalizing t w with
  | nil =>
    simp only [runOps, Option.some.injEq, Prod.mk.injEq] at h
    obtain ⟨rfl, rfl⟩ := h
    exact fun e he => Or.inl he
  | cons op ops ih =>
    simp only [runOps] at h
    split at h
    · cases h
    · rename_i t2 w2 hs
      intro e he
      rcases ih t2 w2 h e he with h1 | h1
      · cases op with
        | read x =>
          simp only [Op.step] at hs
          split at hs
          · cases hs
          · rename_i t3 s hrd
            simp only [Option.some.injEq, Prod.mk.injEq] at hs
            obtain ⟨rfl, rfl⟩ := hs
            obtain ⟨_, _, _, _, _, hcase⟩ := transaction.read_spec _ _ _ _ _ hrd
            rcases hcase with ⟨_, h2⟩ | ⟨_, _, h3⟩
            · rw [h2] at h1
              exact Or.inl h1
            · rw [h3] at h1
              rcases List.mem_append.1 h1 with h1 | h1
              · exact Or.inl h1
              · simp only [List.mem_singleton] at h1
                rw [h1]
                exact Or.inr (List.mem_cons_self _ _)
        | write x value =>
          simp only [Op.step] at hs
          split at hs
          · cases hs
          · rename_i t3 hwr
            simp only [Option.some.injEq, Prod.mk.injEq] at hs
            obtain ⟨rfl, rfl⟩ := hs
            obtain ⟨t4, h4, hrl, _⟩ :=
              transaction.write_spec t x value (transaction.write_ne_none _ _ _ _ hwr)
            rw [hwr] at h4
            cases h4
            rw [hrl] at h1
            exact Or.inl h1
        | async fut F =>
          simp only [Op.step, Option.some.injEq, Prod.mk.injEq] at hs
          obtain ⟨rfl, rfl⟩ := hs
          exact Or.inl h1
        | direct x rhs =>
          simp only [Op.step, Option.some.injEq, Prod.mk.injEq] at hs
          obtain ⟨rfl, rfl⟩ := hs
          exact Or.inl h1
      · exact Or.inr (List.mem_cons_of_mem _ h1)

/-- C9 (amended): an attempt on a default-constructed transaction made of reads,
writes and async enqueues on non-null cells, each write passing a snapshot of the
element type of its cell and each read naming a cell whose value `operator==`
finds equal to itself (no NaN), with no cell modified from outside, commits at
once (the retry loop ends after one iteration);
and for `int` values `a`, `b` for which neither `a*a` nor `a*a - b` overflows
`int`, the loop of `main` on `A_ = A_*A_ - B_` with `A = a`, `B = b` (distinct
objects) ends after one iteration with `A = a*a - b` and `B = b`. -/
theorem uncontended_commit_succeeds :
    (∀ (ops : List Op) (w : World), (∀ op ∈ ops, op.isDirect = false) →
      (∀ op ∈ ops, op.nonNull = true) → (∀ op ∈ ops, op.typed w.cells = true) →
      (∀ op ∈ ops, op.readsSelfEqual w.cells = true) →
      ∃ t1 w1, runOps ops transaction.empty w = some (t1, w) ∧
        t1.commit_transaction w = some (true, t1, w1) ∧
        ∀ fuel, driver (fun _ => Prog.ofOps ops) (fuel + 1) w = some (1, t1, w1)) ∧
    (∀ (A B : Ptr) (a b : Int) (w : World) (fuel : Nat), A ≠ NULL → B ≠ NULL → A ≠ B →
      w.cells A = .int a → w.cells B = .int b →
      inIntRange (a * a) → inIntRange (a * a - b) →
      ∃ t1 w1, driver (fun _ => body_S1 A B) (fuel + 1) w = some (1, t1, w1) ∧
        w1.cells A = .int (a * a - b) ∧ w1.cells B = .int b) := by
  constructor
  · intro ops w hd hnn hty hse
    obtain ⟨t1, w1, hrun⟩ := runOps_total ops transaction.empty w hnn
    obtain ⟨hw, hr⟩ := runOps_uncontended ops _ _ _ _ hrun hd (by simp [transaction.empty])
    have horigin := runOps_logged_reads ops _ _ _ _ hrun
    subst hw
    obtain ⟨k1, k2⟩ := runOps_writes_ready w1.cells ops _ _ _ _ hrun hty
      (by simp [transaction.empty]) (by simp [transaction.empty])
    have hwf : t1.WellFormed w1.cells :=
      ⟨k1, fun e he => ⟨(hr e he).1, by rw [(hr e he).2]⟩, k2⟩
    rcases transaction.commit_of_wellFormed t1 w1 hwf with ⟨w3, hc, _⟩ | ⟨_, e, he, hne⟩
    · refine ⟨t1, w3, hrun, hc, fun fuel => ?_⟩
      apply driver_first_success
      simp only [attempt, Prog.run_ofOps, hrun, hc]
    · have hread : Op.read e.1 ∈ ops := by
        rcases horigin e he with h1 | h1
        · simp [transaction.empty] at h1
        · exact h1
      have hself : atomic.selfEqual (w1.cells e.1) = true := by
        simpa [Op.readsSelfEqual] using hse _ hread
      rw [(hr e he).2, atomic_eq_self _ hself] at hne
      cases hne
  · intro A B a b w fuel hA hB hAB ha hb hr1 hr2
    have hres : intSub (intMul a a) b = a * a - b := by
      unfold intSub intMul
      rw [wrapInt_of_inIntRange _ hr1, wrapInt_of_inIntRange _ hr2]
    have hrun := run_body_S1 A B a b w hA hB hAB ha hb
    refine ⟨_, _, driver_first_success (fun _ => body_S1 A B) fuel w _ _ hrun, ?_, ?_⟩
    · simp [setCell, hres]
    · simp [setCell, Ne.symm hAB, hb]

/-- C9, instance: an attempt that reads `A` and `B` and writes `A`, and the first
block of `main` on `A = 4`, `B = 1`. -/
theorem uncontended_commit_succeeds_witness :
    (driver (fun _ => body_S1 1 2) 1 world_A4_B1).map
        (fun r => (r.1, r.2.2.cells 1, r.2.2.cells 2)) = some (1, .int 15, .int 1) ∧
    (∃ t1 w1, runOps ops_read_write transaction.empty world_A4_B1 = some (t1, world_A4_B1) ∧
        t1.commit_transaction world_A4_B1 = some (true, t1, w1) ∧
        ∀ fuel, driver (fun _ => Prog.ofOps ops_read_write) (fuel + 1) world_A4_B1
          = some (1, t1, w1)) ∧
    (∃ t1 w1, driver (fun _ => body_S1 1 2) (0 + 1) world_A4_B1 = some (1, t1, w1) ∧
        w1.cells 1 = .int (4 * 4 - 1) ∧ w1.cells 2 = .int 1) :=
  ⟨by decide,
   uncontended_commit_succeeds.1 ops_read_write world_A4_B1 (by decide) (by decide)
     (by decide) (by decide),
   uncontended_commit_succeeds.2 1 2 4 1 world_A4_B1 0 (by decide) (by decide) (by decide)
     rfl rfl (by decide) (by decide)⟩

theorem attempt_read_U_fails :
    attempt (Prog.ofOps ops_read_U) transaction.empty world_U_nan
      = some (false, transaction.empty, world_U_nan) := rfl

theorem driverLoop_read_U (fuel n : Nat) :
    driverLoop (fun _ => Prog.ofOps ops_read_U) fuel n transaction.empty world_U_nan
      = none := by
  induction fuel generalizing n with
  | zero => rfl
  | succ fuel ih =>
    simp only [driverLoop, attempt_read_U_fails]
    exact ih (n + 1)

/-- C9 as stated fails three times: an uncontended attempt that writes an atomic
vector to an `atomic<int>` aborts in commit instead of succeeding; an uncontended
attempt that only reads the atomic vector `U = [0, NaN]` fails its commit, in
every iteration of the retry loop, because `operator==` finds the NaN unequal to
itself; and on `A = 65536`, `B = 0` the product `A_*A_` overflows `int`, the
loop ends with `A = 0`, not with `A = 65536*65536 - 0`. -/
theorem uncontended_counterexamples :
    ((∀ op ∈ ops_mistyped, op.isDirect = false) ∧
      (runOps ops_mistyped transaction.empty world_A4_B1).bind
        (fun r => (r.1.commit_transaction world_A4_B1).map (fun c => c.1)) = none) ∧
    ((∀ op ∈ ops_read_U, op.isDirect = false) ∧ (∀ op ∈ ops_read_U, op.nonNull = true) ∧
      (∀ op ∈ ops_read_U, op.typed world_U_nan.cells = true) ∧
      (runOps ops_read_U transaction.empty world_U_nan).bind
        (fun r => (r.1.commit_transaction world_U_nan).map (fun c => c.1)) = some false ∧
      ∀ fuel, driver (fun _ => Prog.ofOps ops_read_U) fuel world_U_nan = none) ∧
    (inIntRange 65536 ∧ inIntRange 0 ∧
      (driver (fun _ => body_S1 1 2) 1 world_A65536_B0).map (fun r => (r.1, r.2.2.cells 1))
        = some (1, .int 0) ∧
      (driver (fun _ => body_S1 1 2) 1 world_A65536_B0).map (fun r => r.2.2.cells 1)
        ≠ some (.int (65536 * 65536 - 0))) :=
  ⟨by decide,
   ⟨by decide, by decide, by decide, by decide, fun fuel => driverLoop_read_U fuel 0⟩,
   by decide⟩

/-- C10 (amended): for `int` values `a` and `v` with `v ≠ a` for which neither
`a*a` nor `v*v` overflows `int`, the loop of `main` on `tmp = A_*A_; A_ = tmp`
with `A = a`, where the first iteration only has `A.write(v)` between the
computation of `tmp` and the assignment: the first commit fails, the second
iteration reads `v` and stages `v*v`, the second commit succeeds, the loop ends
after exactly two iterations with `A = v*v`. -/
theorem forced_conflict_retries_once (A : Ptr) (a v : Int) (w : World) (fuel : Nat)
    (hA : A ≠ NULL) (ha : w.cells A = .int a) (hne : v ≠ a)
    (hr1 : inIntRange (a * a)) (hr2 : inIntRange (v * v)) :
    ∃ w1 t2 w2,
      attempt (loop_S3 A v 0) transaction.empty w = some (false, transaction.empty, w1) ∧
      w1.cells A = .int v ∧
      attempt (loop_S3 A v 1) transaction.empty w1 = some (true, t2, w2) ∧
      t2.read_list = [(A, .int v)] ∧ mapFind t2.variables_ A = some (.int (v * v)) ∧
      w2.cells A = .int (v * v) ∧
      driver (loop_S3 A v) (fuel + 2) w = some (2, t2, w2) := by
  have _ := hr1
  have hres : intMul v v = v * v := wrapInt_of_inIntRange _ hr2
  have h1 := run_body_S3_fail A a v w hA ha hne
  have hv : ({ w with cells := atomic.write_direct w.cells A (.int v) } : World).cells A
      = .int v := by
    simp [atomic.write_direct, setCell]
  have h2 := run_body_S3_pass A v _ hA hv
  refine ⟨_, _, _, h1, hv, h2, rfl, ?_, ?_, ?_⟩
  · simp [mapFind, hres]
  · simp [setCell, hres]
  · simp only [driver, driverLoop, loop_S3]
    simp only [show ((0 : Nat) == 0) = true from rfl, h1]
    simp only [show ((0 + 1 : Nat) == 0) = false from rfl, h2]

/-- C10, instance: the third block of `main`, `A = 4` overwritten with 3. -/
theorem forced_conflict_retries_once_witness :
    (driver (loop_S3 1 3) 2 world_A4_B1).map (fun r => (r.1, r.2.2.cells 1))
      = some (2, .int 9) ∧
    ∃ w1 t2 w2,
      attempt (loop_S3 1 3 0) transaction.empty world_A4_B1
        = some (false, transaction.empty, w1) ∧
      w1.cells 1 = .int 3 ∧
      attempt (loop_S3 1 3 1) transaction.empty w1 = some (true, t2, w2) ∧
      t2.read_list = [(1, .int 3)] ∧ mapFind t2.variables_ 1 = some (.int (3 * 3)) ∧
      w2.cells 1 = .int (3 * 3) ∧
      driver (loop_S3 1 3) (0 + 2) world_A4_B1 = some (2, t2, w2) :=
  ⟨by decide,
   forced_conflict_retries_once 1 4 3 world_A4_B1 0 (by decide) rfl (by decide) (by decide)
     (by decide)⟩

/-- C10 as stated fails: with `A = 4` overwritten by 65536 the second iteration
computes `65536*65536`, which overflows `int`; the loop ends after two iterations
with `A = 0`, not with `A = 65536*65536`. -/
theorem forced_conflict_overflow :
    inIntRange 4 ∧ inIntRange 65536 ∧
    (driver (loop_S3 1 65536) 2 world_A4_B1).map (fun r => (r.1, r.2.2.cells 1))
      = some (2, .int 0) ∧
    (driver (loop_S3 1 65536) 2 world_A4_B1).map (fun r => r.2.2.cells 1)
      ≠ some (.int (65536 * 65536)) := by
  decide

/-! ## Invariants of reachable transactions -/

theorem mapFind_eq_none_iff (m : List (Ptr × Val)) (c : Ptr) :
    mapFind m c = none ↔ c ∉ m.map Prod.fst := by
  induction m with
  | nil => simp [mapFind]
  | cons a m ih =>
    obtain ⟨k, s⟩ := a
    simp only [mapFind, List.map_cons, List.mem_cons, not_or]
    by_cases hk : c = k
    · simp [hk]
    · simp [hk, ih]

theorem mem_keys_orderedInsert (m : List (Ptr × Val)) (var : Ptr) (v : Val) (c : Ptr) :
    c ∈ (orderedInsert m var v).map Prod.fst ↔ c = var ∨ c ∈ m.map Prod.fst := by
  simp only [List.mem_map, mem_orderedInsert]
  constructor
  · rintro ⟨e, he | he, rfl⟩
    · left
      rw [he]
    · exact Or.inr ⟨e, he, rfl⟩
  · rintro (h | ⟨e, he, rfl⟩)
    · exact ⟨(var, v), Or.inl rfl, h.symm⟩
    · exact ⟨e, Or.inr he, rfl⟩

theorem sorted_orderedInsert (m : List (Ptr × Val)) (var : Ptr) (v : Val)
    (hs : (m.map Prod.fst).Pairwise (fun a b => a < b)) (hn : var ∉ m.map Prod.fst) :
    ((orderedInsert m var v).map Prod.fst).Pairwise (fun a b => a < b) := by
  induction m with
  | nil => simp [orderedInsert]
  | cons a m ih =>
    obtain ⟨k, s⟩ := a
    simp only [List.map_cons, List.pairwise_cons, List.mem_cons, not_or] at hs hn
    simp only [orderedInsert]
    split
    · rename_i hlt
      simp only [List.map_cons, List.pairwise_cons, List.mem_cons]
      refine ⟨?_, hs.1, hs.2⟩
      rintro b (hb | hb)
      · rw [hb]
        exact hlt
      · exact Nat.lt_trans hlt (hs.1 b hb)
    · rename_i hlt
      simp only [List.map_cons, List.pairwise_cons]
      refine ⟨?_, ih hs.2 hn.2⟩
      intro b hb
      rcases (mem_keys_orderedInsert m var v b).1 hb with hb | hb
      · rw [hb]
        exact Nat.lt_of_le_of_ne (Nat.le_of_not_lt hlt) (Ne.symm hn.1)
      · exact hs.1 b hb

namespace transaction

theorem read_absent (t : transaction) (cells : Cells) (var : Ptr) (hvar : var ≠ NULL)
    (h : mapFind t.variables_ var = none) :
    t.read cells var
      = some ({ t with
                variables_ := orderedInsert t.variables_ var (cells var)
                read_list := t.read_list ++ [(var, cells var)] }, cells var) := by
  simp [read, hvar, h, atomic.clone]

theorem write_absent (t : transaction) (var : Ptr) (v : Val) (hvar : var ≠ NULL)
    (h : mapFind t.variables_ var = none) :
    t.write var v
      = some { t with
               variables_ := orderedInsert t.variables_ var v
               write_set := setInsert t.write_set var } := by
  simp [write, hvar, h, atomic.clone]

theorem write_present (t : transaction) (var : Ptr) (v s : Val) (hvar : var ≠ NULL)
    (h : mapFind t.variables_ var = some s) :
    t.write var v
      = some { t with
               variables_ := mapAssign t.variables_ var v
               write_set := setInsert t.write_set var } := by
  simp [write, hvar, h, atomic.clone]

theorem invariant_empty : transaction.empty.Invariant := by
  constructor <;> simp [transaction.empty]

theorem invariant_read (t t1 : transaction) (cells : Cells) (var : Ptr) (s : Val)
    (h : t.read cells var = some (t1, s)) (hi : t.Invariant) : t1.Invariant := by
  have hvar : var ≠ NULL := by
    intro hc
    simp [read, hc] at h
  cases hf : mapFind t.variables_ var with
  | some s1 =>
    rw [read_of_find t cells var s1 hvar hf] at h
    simp only [Option.some.injEq, Prod.mk.injEq] at h
    rw [← h.1]
    exact hi
  | none =>
    rw [read_absent t cells var hvar hf] at h
    simp only [Option.some.injEq, Prod.mk.injEq] at h
    obtain ⟨rfl, _⟩ := h
    have hnk : var ∉ t.variables_.map Prod.fst := (mapFind_eq_none_iff _ _).1 hf
    have hnr : var ∉ t.read_list.map Prod.fst := fun hc => hnk ((hi.keys_eq var).2 (Or.inl hc))
    have hnw : var ∉ t.write_set := fun hc => hnk ((hi.keys_eq var).2 (Or.inr hc))
    constructor
    · intro e he
      rcases (mem_orderedInsert _ _ _ _).1 he with he | he
      · rw [he]
        exact hvar
      · exact hi.keys_nonNull e he
    · intro e he
      rcases List.mem_append.1 he with he | he
      · exact hi.reads_nonNull e he
      · simp only [List.mem_singleton] at he
        rw [he]
        exact hvar
    · exact hi.writes_nonNull
    · intro c
      simp only [mem_keys_orderedInsert, List.map_append, List.map_cons, List.map_nil,
        List.mem_append, List.mem_singleton, hi.keys_eq c]
      tauto
    · exact sorted_orderedInsert _ _ _ hi.keys_sorted hnk
    · simp only [List.map_append, List.map_cons, List.map_nil]
      rw [List.nodup_append]
      refine ⟨hi.reads_nodup, by simp, ?_⟩
      intro a ha hb
      simp only [List.mem_singleton] at hb
      subst hb
      exact hnr ha
    · intro e he hw
      simp only at hw ⊢
      rw [mapFind_orderedInsert _ _ _ _ hf]
      rcases List.mem_append.1 he with he | he
      · have hne : e.1 ≠ var := fun hc => hnr (hc ▸ List.mem_map_of_mem Prod.fst he)
        simp only [hne, if_false]
        exact hi.unwritten e he hw
      · simp only [List.mem_singleton] at he
        rw [he]
        simp

theorem invariant_write (t t1 : transaction) (var : Ptr) (v : Val)
    (h : t.write var v = some t1) (hi : t.Invariant) : t1.Invariant := by
  have hvar : var ≠ NULL := write_ne_none t t1 var v h
  have hkeys : ∀ c, c ∈ t1.variables_.map Prod.fst ↔ c = var ∨ c ∈ t.variables_.map Prod.fst := by
    intro c
    cases hf : mapFind t.variables_ var with
    | none =>
      rw [write_absent t var v hvar hf] at h
      cases h
      exact mem_keys_orderedInsert _ _ _ _
    | some s1 =>
      rw [write_present t var v s1 hvar hf] at h
      cases h
      simp only [keys_mapAssign]
      have hin : var ∈ t.variables_.map Prod.fst := by
        by_contra hc
        rw [(mapFind_eq_none_iff _ _).2 hc] at hf
        cases hf
      constructor
      · exact Or.inr
      · rintro (hc | hc)
        · rw [hc]
          exact hin
        · exact hc
  obtain ⟨t2, h2, hrl, _, hws, hfind, _⟩ := write_spec t var v hvar
  rw [h] at h2
  cases h2
  constructor
  · intro e he
    have := (hkeys e.1).1 (List.mem_map_of_mem Prod.fst he)
    rcases this with hc | hc
    · rw [hc]
      exact hvar
    · obtain ⟨e1, he1, heq⟩ := List.mem_map.1 hc
      rw [← heq]
      exact hi.keys_nonNull e1 he1
  · rw [hrl]
    exact hi.reads_nonNull
  · intro c hc
    rw [hws, mem_setInsert] at hc
    rcases hc with hc | hc
    · rw [hc]
      exact hvar
    · exact hi.writes_nonNull c hc
  · intro c
    rw [hkeys, hrl, hws, mem_setInsert, hi.keys_eq c]
    tauto
  · cases hf : mapFind t.variables_ var with
    | none =>
      rw [write_absent t var v hvar hf] at h
      cases h
      exact sorted_orderedInsert _ _ _ hi.keys_sorted ((mapFind_eq_none_iff _ _).1 hf)
    | some s1 =>
      rw [write_present t var v s1 hvar hf] at h
      cases h
      simp only [keys_mapAssign]
      exact hi.keys_sorted
  · rw [hrl]
    exact hi.reads_nodup
  · intro e he hw
    rw [hrl] at he
    rw [hws, mem_setInsert, not_or] at hw
    rw [hfind]
    simp only [hw.1, if_false]
    exact hi.unwritten e he hw.2

theorem invariant_clear (t : transaction) : t.clear.Invariant :=
  invariant_empty

theorem invariant_commit (t t1 : transaction) (w w1 : World) (b : Bool)
    (h : t.commit_transaction w = some (b, t1, w1)) (hi : t.Invariant) : t1.Invariant := by
  cases b with
  | true =>
    rw [(commit_eq_true t t1 w w1 h).1]
    exact hi
  | false =>
    rw [(commit_eq_false t t1 w w1 h).1]
    exact invariant_clear t

end transaction

theorem op_step_invariant (o : Op) (t t1 : transaction) (w w1 : World)
    (h : o.step t w = some (t1, w1)) (hi : t.Invariant) : t1.Invariant := by
  cases o with
  | read x =>
    simp only [Op.step] at h
    split at h
    · cases h
    · rename_i t2 s hr
      simp only [Option.some.injEq, Prod.mk.injEq] at h
      rw [← h.1]
      exact transaction.invariant_read t t2 w.cells x s hr hi
  | write x value =>
    simp only [Op.step] at h
    split at h
    · cases h
    · rename_i t2 hwr
      simp only [Option.some.injEq, Prod.mk.injEq] at h
      rw [← h.1]
      exact transaction.invariant_write t t2 x value hwr hi
  | async fut F =>
    simp only [Op.step, Option.some.injEq, Prod.mk.injEq] at h
    rw [← h.1]
    exact ⟨hi.keys_nonNull, hi.reads_nonNull, hi.writes_nonNull, hi.keys_eq, hi.keys_sorted,
      hi.reads_nodup, hi.unwritten⟩
  | direct x rhs =>
    simp only [Op.step, Option.some.injEq, Prod.mk.injEq] at h
    rw [← h.1]
    exact hi

theorem call_step_invariant (c : Call) (t t1 : transaction) (w w1 : World)
    (h : c.step t w = some (t1, w1)) (hi : t.Invariant) : t1.Invariant := by
  cases c with
  | op o => exact op_step_invariant o t t1 w w1 h hi
  | clear =>
    simp only [Call.step, Option.some.injEq, Prod.mk.injEq] at h
    rw [← h.1]
    exact transaction.invariant_clear t
  | commit =>
    simp only [Call.step] at h
    split at h
    · cases h
    · rename_i b t2 w2 hc
      simp only [Option.some.injEq, Prod.mk.injEq] at h
      rw [← h.1]
      exact transaction.invariant_commit t t2 w w2 b hc hi

theorem runCalls_invariant (calls : List Call) (t t1 : transaction) (w w1 : World)
    (h : runCalls calls t w = some (t1, w1)) (hi : t.Invariant) : t1.Invariant := by
  induction calls generalizing t w with
  | nil =>
    simp only [runCalls, Option.some.injEq, Prod.mk.injEq] at h
    rw [← h.1]
    exact hi
  | cons c calls ih =>
    simp only [runCalls] at h
    split at h
    · cases h
    · rename_i t2 w2 hs
      exact ih t2 w2 h (call_step_invariant c t t2 w w2 hs hi)

theorem reach_invariant (calls : List Call) (w : World) (t : transaction)
    (h : reach calls w = some t) : t.Invariant := by
  unfold reach at h
  cases hr : runCalls calls transaction.empty w with
  | none => simp [hr] at h
  | some r =>
    obtain ⟨t1, w1⟩ := r
    simp only [hr, Option.map_some', Option.some.injEq] at h
    subst h
    exact runCalls_invariant calls _ _ _ _ hr transaction.invariant_empty

/-! ## After a successful commit; the shape of reachable transactions -/

/-- C12 (amended): a commit that returns success does not empty the transaction;
it leaves the working set, read log, write set and async queue exactly as they
were, so they are all empty afterwards only when they were all empty before. -/
theorem commit_success_keeps_containers (t t1 : transaction) (w w1 : World)
    (h : t.commit_transaction w = some (true, t1, w1)) :
    (t1.variables_ = t.variables_ ∧ t1.read_list = t.read_list ∧
      t1.write_set = t.write_set ∧ t1.async_list = t.async_list) ∧
    ((t1.variables_ = [] ∧ t1.read_list = [] ∧ t1.write_set = [] ∧ t1.async_list = []) ↔
      (t.variables_ = [] ∧ t.read_list = [] ∧ t.write_set = [] ∧ t.async_list = [])) := by
  obtain ⟨ht, _, _⟩ := transaction.commit_eq_true t t1 w w1 h
  subst ht
  exact ⟨⟨rfl, rfl, rfl, rfl⟩, Iff.rfl⟩

/-- C12, instance: the transaction that read `A = 4`, staged 16 and enqueued a
continuation, committed on `A = 4`. -/
theorem commit_success_keeps_containers_witness :
    (txn_square_async.commit_transaction world_A4_B1).map (fun r => r.1) = some true ∧
    ((txn_square_async.variables_ = txn_square_async.variables_ ∧
      txn_square_async.read_list = txn_square_async.read_list ∧
      txn_square_async.write_set = txn_square_async.write_set ∧
      txn_square_async.async_list = txn_square_async.async_list) ∧
    ((txn_square_async.variables_ = [] ∧ txn_square_async.read_list = [] ∧
        txn_square_async.write_set = [] ∧ txn_square_async.async_list = []) ↔
      (txn_square_async.variables_ = [] ∧ txn_square_async.read_list = [] ∧
        txn_square_async.write_set = [] ∧ txn_square_async.async_list = []))) :=
  ⟨by decide,
   commit_success_keeps_containers txn_square_async txn_square_async world_A4_B1
     (transaction.dispatchAll txn_square_async.async_list
       { world_A4_B1 with cells := setCell world_A4_B1.cells 1 (.int 16) }) rfl⟩

/-- C12 as stated fails: the transaction that read `A = 4`, staged `A = 16` and
enqueued a continuation is reached through `read`, `write`, `async`; its commit
on `A = 4` returns success and all four containers are still non-empty. -/
theorem commit_success_does_not_clear :
    reach calls_square_async world_A4_B1 = some txn_square_async ∧
    (txn_square_async.commit_transaction world_A4_B1).map (fun r => (r.1, r.2.1))
      = some (true, txn_square_async) ∧
    txn_square_async.variables_ ≠ [] ∧ txn_square_async.read_list ≠ [] ∧
    txn_square_async.write_set ≠ [] ∧ txn_square_async.async_list ≠ [] := by
  decide

/-- C16: in every transaction reached from a default-constructed one by reads,
writes, async enqueues, clears and commits, the keys of the working set are
exactly the cells of the read log together with the cells of the write set. -/
theorem keys_eq_reads_union_writes (calls : List Call) (w : World) (t : transaction)
    (hreach : reach calls w = some t) :
    ∀ c, c ∈ t.variables_.map Prod.fst ↔
      (c ∈ t.read_list.map Prod.fst ∨ c ∈ t.write_set) := by
  intro c
  have hi := reach_invariant calls w t hreach
  exact hi.keys_eq c

/-- C16, instance: the state after a history with a successful commit, a failed
commit and a `clear`. -/
theorem keys_eq_reads_union_writes_witness :
    reach calls_mixed world_A4_B1
      = some ⟨[(2, .int 1), (1, .int 3)], [2, 3], [],
              [(1, .int 3), (2, .int 8), (3, .int 7)]⟩ ∧
    ∀ c, c ∈ [(1, Val.int 3), (2, Val.int 8), (3, Val.int 7)].map Prod.fst ↔
      (c ∈ [(2, Val.int 1), (1, Val.int 3)].map Prod.fst ∨ c ∈ [2, 3]) :=
  ⟨by decide,
   keys_eq_reads_union_writes calls_mixed world_A4_B1
     ⟨[(2, .int 1), (1, .int 3)], [2, 3], [], [(1, .int 3), (2, .int 8), (3, .int 7)]⟩
     (by decide)⟩

/-- C18: `read` of a cell absent from the working set appends the one entry
(cell, live value) to the end of the read log, maps the cell to that value in the
working set and changes nothing else; `read` of a cell in the working set returns
its snapshot and leaves the transaction as it is; hence in a transaction reached
from a default-constructed one no cell occurs twice in the read log. -/
theorem read_logs_first_reads_only :
    (∀ (t : transaction) (cells : Cells) (C : Ptr), C ≠ NULL →
      mapFind t.variables_ C = none →
      ∃ t1, t.read cells C = some (t1, cells C) ∧
        t1.read_list = t.read_list ++ [(C, cells C)] ∧
        mapFind t1.variables_ C = some (cells C) ∧
        (∀ k, k ≠ C → mapFind t1.variables_ k = mapFind t.variables_ k) ∧
        t1.write_set = t.write_set ∧ t1.async_list = t.async_list) ∧
    (∀ (t : transaction) (cells : Cells) (C : Ptr) (s : Val), C ≠ NULL →
      mapFind t.variables_ C = some s → t.read cells C = some (t, s)) ∧
    (∀ (calls : List Call) (w : World) (t : transaction), reach calls w = some t →
      (t.read_list.map Prod.fst).Nodup) := by
  refine ⟨?_, ?_, ?_⟩
  · intro t cells C hC hf
    refine ⟨_, transaction.read_absent t cells C hC hf, rfl, ?_, ?_, rfl, rfl⟩
    · simp [mapFind_orderedInsert _ _ _ _ hf]
    · intro k hk
      simp [mapFind_orderedInsert _ _ _ _ hf, hk]
  · intro t cells C s hC hf
    exact transaction.read_of_find t cells C s hC hf
  · intro calls w t hreach
    exact (reach_invariant calls w t hreach).reads_nodup

/-- C18, instance: a first read of `B`, a repeated read of `A`, and the read log
of a longer history. -/
theorem read_logs_first_reads_only_witness :
    (txn_square_async.read world_A4_B1.cells 2).map
        (fun r => (r.1.read_list, r.2)) = some ([(1, .int 4), (2, .int 1)], .int 1) ∧
    (∃ t1, txn_square_async.read world_A4_B1.cells 2 = some (t1, world_A4_B1.cells 2) ∧
        t1.read_list = txn_square_async.read_list ++ [(2, world_A4_B1.cells 2)] ∧
        mapFind t1.variables_ 2 = some (world_A4_B1.cells 2) ∧
        (∀ k, k ≠ 2 → mapFind t1.variables_ k = mapFind txn_square_async.variables_ k) ∧
        t1.write_set = txn_square_async.write_set ∧
        t1.async_list = txn_square_async.async_list) ∧
    txn_square_async.read world_A3.cells 1 = some (txn_square_async, .int 16) ∧
    ([(2, Val.int 1), (1, Val.int 3)].map Prod.fst).Nodup :=
  ⟨by decide,
   read_logs_first_reads_only.1 txn_square_async world_A4_B1.cells 2 (by decide) (by decide),
   read_logs_first_reads_only.2.1 txn_square_async world_A3.cells 1 (.int 16) (by decide)
     (by decide),
   read_logs_first_reads_only.2.2 calls_mixed world_A4_B1
     ⟨[(2, .int 1), (1, .int 3)], [2, 3], [], [(1, .int 3), (2, .int 8), (3, .int 7)]⟩
     (by decide)⟩

/-- C20: in every transaction reached from a default-constructed one by reads,
writes, async enqueues, clears and commits (calls on a null cell abort and reach
nothing), no `assert` of `commit_transaction` can fail: no working-set key, no
read-log cell and no write-set cell is null, and every write-set cell is found in
the working set. -/
theorem commit_asserts_hold (calls : List Call) (w : World) (t : transaction)
    (hreach : reach calls w = some t) :
    t.assertsHold ∧
    (∀ e ∈ t.variables_, e.1 ≠ NULL) ∧ (∀ e ∈ t.read_list, e.1 ≠ NULL) ∧
    (∀ var ∈ t.write_set, var ≠ NULL ∧ ∃ s, mapFind t.variables_ var = some s) ∧
    ∃ locks, transaction.acquireLocks t.variables_ = some locks := by
  have hi := reach_invariant calls w t hreach
  have hfound : ∀ var ∈ t.write_set, ∃ s, mapFind t.variables_ var = some s := by
    intro var hv
    have hk := (hi.keys_eq var).2 (Or.inr hv)
    cases hf : mapFind t.variables_ var with
    | none => exact absurd hk ((mapFind_eq_none_iff _ _).1 hf)
    | some s => exact ⟨s, rfl⟩
  refine ⟨⟨hi.keys_nonNull, hi.reads_nonNull, ?_⟩, hi.keys_nonNull, hi.reads_nonNull, ?_,
    ⟨_, transaction.acquireLocks_of_nonNull _ hi.keys_nonNull⟩⟩
  · intro var hv
    obtain ⟨s, hs⟩ := hfound var hv
    exact ⟨hi.writes_nonNull var hv, by simp [hs]⟩
  · intro var hv
    exact ⟨hi.writes_nonNull var hv, hfound var hv⟩

/-- C20, instance: the state after a history with a successful commit, a failed
commit and a `clear`; and calls on a null cell reach nothing. -/
theorem commit_asserts_hold_witness :
    reach [.op (.read NULL)] world_A4_B1 = none ∧
    reach [.op (.write NULL (.int 1))] world_A4_B1 = none ∧
    (transaction.assertsHold
        ⟨[(2, .int 1), (1, .int 3)], [2, 3], [], [(1, .int 3), (2, .int 8), (3, .int 7)]⟩ ∧
     (∀ e ∈ [(1, Val.int 3), (2, Val.int 8), (3, Val.int 7)], e.1 ≠ NULL) ∧
     (∀ e ∈ [(2, Val.int 1), (1, Val.int 3)], e.1 ≠ NULL) ∧
     (∀ var ∈ [2, 3], var ≠ NULL ∧
        ∃ s, mapFind [(1, Val.int 3), (2, Val.int 8), (3, Val.int 7)] var = some s) ∧
     ∃ locks, transaction.acquireLocks [(1, Val.int 3), (2, Val.int 8), (3, Val.int 7)]
        = some locks) :=
  ⟨by decide, by decide,
   commit_asserts_hold calls_mixed world_A4_B1
     ⟨[(2, .int 1), (1, .int 3)], [2, 3], [], [(1, .int 3), (2, .int 8), (3, .int 7)]⟩
     (by decide)⟩

/-! ## Type violations -/

theorem transaction.applyWrites_some_typed (vars : List (Ptr × Val)) (ws : List Ptr)
    (cells cells1 : Cells) (h : applyWrites vars ws cells = some cells1) :
    ∀ var ∈ ws, ∃ s, mapFind vars var = some s ∧ s.ty = (cells var).ty := by
  induction ws generalizing cells with
  | nil => simp
  | cons a ws ih =>
    simp only [applyWrites] at h
    split at h
    · cases h
    · split at h
      · cases h
      · rename_i snap hf
        split at h
        · cases h
        · rename_i d hw
          obtain ⟨hty, hd⟩ := (atomic_write_eq_some _ _ _).1 hw
          subst hd
          intro var hv
          rcases List.mem_cons.1 hv with hv | hv
          · subst hv
            exact ⟨d, hf, hty⟩
          · obtain ⟨s, hs, hst⟩ := ih _ h var hv
            refine ⟨s, hs, ?_⟩
            by_cases hva : var = a
            · subst hva
              rw [hf] at hs
              cases hs
              exact hty
            · simpa [setCell, hva] using hst

/-- C13 (amended): `write(atomic_base const&)` and `operator==` abort instead of
returning when the dynamic element type of the snapshot differs from that of the
cell (nothing is stored); and while a type-mismatched snapshot accepted by
`transaction::write` is staged for its cell, `commit_transaction` never returns
success: it aborts when validation passes, and otherwise either aborts or returns
failure because validation found a conflict first. -/
theorem type_violation_aborts :
    (∀ self rhs : Val, rhs.ty ≠ self.ty →
      atomic.write self rhs = none ∧ atomic.eq self rhs = none) ∧
    (∀ (t t1 : transaction) (var : Ptr) (v : Val), t.write var v = some t1 →
      ∀ (ops : List Op) (w0 w2 : World) (t2 : transaction),
        (∀ op ∈ ops, Op.writesTo var op = false) → runOps ops t1 w0 = some (t2, w2) →
        ∀ w : World, v.ty ≠ (w.cells var).ty →
          (¬ ∃ r, t2.commit_transaction w = some (true, r)) ∧
          (transaction.validate w.cells t2.read_list = some true →
            t2.commit_transaction w = none) ∧
          (t2.commit_transaction w = none ∨
            t2.commit_transaction w = some (false, t2.clear, w))) := by
  constructor
  · intro self rhs h
    cases self <;> cases rhs <;> simp [atomic.write, atomic.eq, Val.ty] at h ⊢
  · intro t t1 var v hwr ops w0 w2 t2 hnw hrun w hty
    have hvar := transaction.write_ne_none t t1 var v hwr
    obtain ⟨t3, h3, _, _, hws, hfind, _⟩ := transaction.write_spec t var v hvar
    rw [hwr] at h3
    cases h3
    have hf2 : mapFind t2.variables_ var = some v :=
      runOps_find_other ops t1 t2 w0 w2 var v hrun hnw (by simp [hfind])
    have hw2 : var ∈ t2.write_set :=
      runOps_write_set_mono ops t1 t2 w0 w2 var hrun
        (by rw [hws, mem_setInsert]; exact Or.inl rfl)
    have hno : ¬ ∃ r, t2.commit_transaction w = some (true, r) := by
      rintro ⟨⟨t4, w4⟩, hc⟩
      obtain ⟨_, _, cells1, ha, _⟩ := transaction.commit_eq_true t2 t4 w w4 hc
      obtain ⟨s, hs, hst⟩ := transaction.applyWrites_some_typed _ _ _ _ ha var hw2
      rw [hf2] at hs
      cases hs
      exact hty hst
    have hcases : t2.commit_transaction w = none ∨
        t2.commit_transaction w = some (false, t2.clear, w) := by
      cases hc : t2.commit_transaction w with
      | none => exact Or.inl rfl
      | some r =>
        obtain ⟨b, t4, w4⟩ := r
        cases b with
        | true => exact absurd ⟨_, hc⟩ hno
        | false =>
          obtain ⟨c1, c2, _⟩ := transaction.commit_eq_false t2 t4 w w4 hc
          subst c1 c2
          exact Or.inr rfl
    refine ⟨hno, ?_, hcases⟩
    intro hv
    rcases hcases with hc | hc
    · exact hc
    · obtain ⟨_, _, hvf⟩ := transaction.commit_eq_false t2 _ w _ hc
      rw [hv] at hvf
      cases hvf

/-- C13, instance: an `int` cell and a vector snapshot; the commit after writing
an atomic vector to the `atomic<int>` at address 1. -/
theorem type_violation_aborts_witness :
    (atomic.write (.int 4) (.vec []) = none ∧ atomic.eq (.int 4) (.vec []) = none) ∧
    ((¬ ∃ r, txn_mistyped.commit_transaction world_A4_B1 = some (true, r)) ∧
      (transaction.validate world_A4_B1.cells txn_mistyped.read_list = some true →
        txn_mistyped.commit_transaction world_A4_B1 = none) ∧
      (txn_mistyped.commit_transaction world_A4_B1 = none ∨
        txn_mistyped.commit_transaction world_A4_B1
          = some (false, txn_mistyped.clear, world_A4_B1))) :=
  ⟨type_violation_aborts.1 (.int 4) (.vec []) (by decide),
   type_violation_aborts.2 transaction.empty txn_mistyped 1 (.vec []) rfl [] world_A4_B1
     world_A4_B1 txn_mistyped (by simp) rfl world_A4_B1 (by decide)⟩

/-- C13 as stated fails in its last part: after a read of `B`, a write of an atomic
vector to the `atomic<int>` `A` and a change of `B` from outside, the mismatched
snapshot is staged for `A`, yet `commit_transaction` returns failure (conflict):
validation stops it before phase 3 reaches the mismatched write. -/
theorem mistyped_write_can_return_conflict :
    (∀ op ∈ ops_mistyped_conflict, op.nonNull = true) ∧
    (runOps ops_mistyped_conflict transaction.empty world_A4_B1).map
        (fun r => (mapFind r.1.variables_ 1, r.1.write_set, r.2.cells 1))
      = some (some (.vec []), [1], .int 4) ∧
    (runOps ops_mistyped_conflict transaction.empty world_A4_B1).bind
        (fun r => (r.1.commit_transaction r.2).map (fun c => (c.1, c.2.1)))
      = some (false, transaction.empty) := by
  decide

/-! ## Lock discipline -/

theorem lockDiscipline_locks (keys held : List Ptr) (rest : List Event)
    (hn : keys.Nodup) (hd : ∀ c ∈ keys, c ∉ held) :
    lockDiscipline held (keys.map Event.lock ++ rest)
      = lockDiscipline (keys.reverse ++ held) rest := by
  induction keys generalizing held with
  | nil => rfl
  | cons c ks ih =>
    rw [List.nodup_cons] at hn
    have hc : c ∉ held := hd c (List.mem_cons_self _ _)
    have hstep : lockDiscipline held (Event.lock c :: (ks.map Event.lock ++ rest))
        = lockDiscipline (c :: held) (ks.map Event.lock ++ rest) := by
      simp [lockDiscipline, hc]
    rw [List.map_cons, List.cons_append, hstep, ih (c :: held) hn.2]
    · simp
    · intro k hk
      simp only [List.mem_cons, not_or]
      exact ⟨fun h => hn.1 (h ▸ hk), hd k (List.mem_cons_of_mem _ hk)⟩

theorem lockDiscipline_unlocks (keys held : List Ptr) (hn : keys.Nodup)
    (hs : ∀ c ∈ keys, c ∈ held) :
    lockDiscipline held (keys.map Event.unlock) = true := by
  induction keys generalizing held with
  | nil => rfl
  | cons c ks ih =>
    rw [List.nodup_cons] at hn
    have hc : c ∈ held := hs c (List.mem_cons_self _ _)
    have hstep : lockDiscipline held (Event.unlock c :: ks.map Event.unlock)
        = lockDiscipline (held.erase c) (ks.map Event.unlock) := by
      simp [lockDiscipline, hc]
    rw [List.map_cons, hstep]
    apply ih _ hn.2
    intro k hk
    have hne : k ≠ c := fun h => hn.1 (h ▸ hk)
    exact (List.mem_erase_of_ne hne).2 (hs k (List.mem_cons_of_mem _ hk))

/-- Events of phases 2 to 4 on cells whose lock is held do not disturb the monitor. -/
theorem lockDiscipline_mid (mid rest : List Event) (held : List Ptr)
    (h : ∀ e ∈ mid, (∃ c, c ∈ held ∧ (e = Event.compare c ∨ e = Event.store c)) ∨
      ∃ F, e = Event.dispatch F) :
    lockDiscipline held (mid ++ rest) = lockDiscipline held rest := by
  induction mid with
  | nil => rfl
  | cons e mid ih =>
    have h1 := h e (List.mem_cons_self _ _)
    have h2 := ih (fun x hx => h x (List.mem_cons_of_mem _ hx))
    rcases h1 with ⟨c, hc, rfl | rfl⟩ | ⟨F, rfl⟩
    · simp [lockDiscipline, hc, h2]
    · simp [lockDiscipline, hc, h2]
    · simp [lockDiscipline, h2]

namespace transaction

theorem validateT_events_mem (cells : Cells) (rl : List (Ptr × Val)) :
    ∀ e ∈ (validateT cells rl).1, ∃ c, c ∈ rl.map Prod.fst ∧ e = Event.compare c := by
  induction rl with
  | nil => simp [validateT]
  | cons a rl ih =>
    obtain ⟨var, snap⟩ := a
    intro e he
    simp only [validateT] at he
    split at he
    · simp at he
    · split at he
      · simp only [List.mem_singleton] at he
        exact ⟨var, by simp, he⟩
      · simp only [List.mem_singleton] at he
        exact ⟨var, by simp, he⟩
      · rcases List.mem_cons.1 he with he | he
        · exact ⟨var, by simp, he⟩
        · obtain ⟨c, hc, rfl⟩ := ih e he
          exact ⟨c, by simp [hc], rfl⟩

/-- A validation that passes has compared every entry of the read list, in order. -/
theorem validateT_events_true (cells : Cells) (rl : List (Ptr × Val))
    (h : (validateT cells rl).2 = some true) :
    (validateT cells rl).1 = rl.map (fun e => Event.compare e.1) := by
  induction rl with
  | nil => rfl
  | cons a rl ih =>
    obtain ⟨var, snap⟩ := a
    simp only [validateT] at h ⊢
    split at h
    · cases h
    · rename_i hnn
      rw [if_neg hnn]
      split at h
      · cases h
      · cases h
      · rename_i heq
        simp only [heq, List.map_cons, ih h]

theorem applyWritesT_events_mem (vars : List (Ptr × Val)) (ws : List Ptr) (cells : Cells) :
    ∀ e ∈ (applyWritesT vars ws cells).1, ∃ c, c ∈ ws ∧ e = Event.store c := by
  induction ws generalizing cells with
  | nil => simp [applyWritesT]
  | cons a ws ih =>
    intro e he
    simp only [applyWritesT] at he
    split at he
    · simp at he
    · split at he
      · simp at he
      · split at he
        · simp only [List.mem_singleton] at he
          exact ⟨a, by simp, he⟩
        · rcases List.mem_cons.1 he with he | he
          · exact ⟨a, by simp, he⟩
          · obtain ⟨c, hc, rfl⟩ := ih _ e he
            exact ⟨c, by simp [hc], rfl⟩

/-- A write-back that runs to its end has stored every cell of the write set, in
order. -/
theorem applyWritesT_events_some (vars : List (Ptr × Val)) (ws : List Ptr) (cells : Cells)
    (h : (applyWritesT vars ws cells).2 ≠ none) :
    (applyWritesT vars ws cells).1 = ws.map Event.store := by
  induction ws generalizing cells with
  | nil => rfl
  | cons a ws ih =>
    simp only [applyWritesT] at h ⊢
    split at h
    · exact absurd rfl h
    · rename_i hnn
      rw [if_neg hnn]
      split at h
      · exact absurd rfl h
      · rename_i snap hf
        split at h
        · exact absurd rfl h
        · rename_i d hw
          simp only [hw, List.map_cons, ih _ h]

theorem dispatchAllT_events (q : List (Ptr × Cont)) (w : World) :
    (dispatchAllT q w).1 = q.map (fun op => Event.dispatch op.2) := by
  induction q generalizing w with
  | nil => rfl
  | cons a q ih =>
    obtain ⟨fut, F⟩ := a
    simp only [dispatchAllT]
    split
    · simp only [List.map_cons, ih]
    · simp only [List.map_cons, ih]

/-- The trace of `commit_transaction` on a transaction that satisfies the
invariant: all locks, then phases 2 to 4 on locked cells only, then the release;
a call that returns `true` has compared every recorded read, stored every cell of
the write set and dispatched every async operation in between. -/
theorem commit_events_shape (t : transaction) (w : World) (hi : t.Invariant) :
    ∃ mid tail,
      t.commit_events w
        = (t.variables_.map Prod.fst).map Event.lock ++ mid ++ tail ∧
      (∀ e ∈ mid, (∃ c, c ∈ t.variables_.map Prod.fst ∧
          (e = Event.compare c ∨ e = Event.store c)) ∨ ∃ F, e = Event.dispatch F) ∧
      (tail = [] ∨ tail = (t.variables_.map Prod.fst).map Event.unlock) ∧
      (t.commit_transaction w ≠ none →
        tail = (t.variables_.map Prod.fst).map Event.unlock) ∧
      (∀ r, t.commit_transaction w = some (true, r) →
        mid = t.read_list.map (fun e => Event.compare e.1) ++ t.write_set.map Event.store ++
          t.async_list.map (fun op => Event.dispatch op.2)) := by
  have hl := acquireLocks_of_nonNull _ hi.keys_nonNull
  have hcmp : ∀ e ∈ (validateT w.cells t.read_list).1,
      (∃ c, c ∈ t.variables_.map Prod.fst ∧ (e = Event.compare c ∨ e = Event.store c)) ∨
        ∃ F, e = Event.dispatch F := by
    intro e he
    obtain ⟨c, hc, rfl⟩ := validateT_events_mem _ _ e he
    exact Or.inl ⟨c, (hi.keys_eq c).2 (Or.inl hc), Or.inl rfl⟩
  have hst : ∀ e ∈ (applyWritesT t.variables_ t.write_set w.cells).1,
      (∃ c, c ∈ t.variables_.map Prod.fst ∧ (e = Event.compare c ∨ e = Event.store c)) ∨
        ∃ F, e = Event.dispatch F := by
    intro e he
    obtain ⟨c, hc, rfl⟩ := applyWritesT_events_mem _ _ _ e he
    exact Or.inl ⟨c, (hi.keys_eq c).2 (Or.inr hc), Or.inr rfl⟩
  have hvt := validateT_events_true w.cells t.read_list
  have hat := applyWritesT_events_some t.variables_ t.write_set w.cells
  unfold commit_events commit_transaction commit_traced
  rw [hl]
  dsimp only
  rcases hv : validateT w.cells t.read_list with ⟨ev2, r2⟩
  rw [hv] at hcmp hvt
  dsimp only at hcmp hvt
  rcases r2 with _ | _ | _
  · exact ⟨ev2, [], by simp, hcmp, Or.inl rfl, fun hne => absurd rfl hne,
      fun r hr => by cases hr⟩
  · refine ⟨ev2, _, rfl, hcmp, Or.inr rfl, fun _ => rfl, fun r hr => ?_⟩
    simp only [Option.some.injEq, Prod.mk.injEq] at hr
    cases hr.1
  · dsimp only
    rcases ha : applyWritesT t.variables_ t.write_set w.cells with ⟨ev3, r3⟩
    rw [ha] at hst hat
    dsimp only at hst hat
    rcases r3 with _ | cells1
    · refine ⟨ev2 ++ ev3, [], by simp, ?_, Or.inl rfl, fun hne => absurd rfl hne,
        fun r hr => by cases hr⟩
      intro e he
      rcases List.mem_append.1 he with he | he
      · exact hcmp e he
      · exact hst e he
    · refine ⟨ev2 ++ ev3 ++ (dispatchAllT t.async_list { w with cells := cells1 }).1, _,
        rfl, ?_, Or.inr rfl, fun _ => rfl, fun r _ => ?_⟩
      · intro e he
        rcases List.mem_append.1 he with he | he
        · rcases List.mem_append.1 he with he | he
          · exact hcmp e he
          · exact hst e he
        · rw [dispatchAllT_events] at he
          obtain ⟨op, _, rfl⟩ := List.mem_map.1 he
          exact Or.inr ⟨op.2, rfl⟩
      · rw [hvt rfl, hat (by simp), dispatchAllT_events]

end transaction

/-- C19: for a transaction reached from a default-constructed one by reads,
writes, async enqueues, clears and commits, phase 1 of `commit_transaction` locks
exactly the working-set keys, each once, in strictly increasing order; the trace
of the call (the first component of `commit_traced`, whose second component is
the result of `commit_transaction`) is these locks, then the comparisons, stores
and dispatches of phases 2 to 4 with no lock released in between, then (unless
the call aborts) the release; every compared or stored cell is a locked key; a
call that returns `true` has compared every recorded read, stored every cell of
the write set and dispatched every async operation between the locks and the
release; and the monitor of the lock preconditions accepts the trace. -/
theorem commit_lock_discipline (calls : List Call) (w0 w : World) (t : transaction)
    (hreach : reach calls w0 = some t) :
    transaction.commit_traced t w = (t.commit_events w, t.commit_transaction w) ∧
    transaction.acquireLocks t.variables_ = some (t.variables_.map Prod.fst) ∧
    (t.variables_.map Prod.fst).Pairwise (fun a b => a < b) ∧
    (t.variables_.map Prod.fst).Nodup ∧
    (∃ mid tail,
      t.commit_events w
        = (t.variables_.map Prod.fst).map Event.lock ++ mid ++ tail ∧
      (∀ e ∈ mid, e.isLockOp = false) ∧
      (∀ c, Event.compare c ∈ mid ∨ Event.store c ∈ mid →
        c ∈ t.variables_.map Prod.fst) ∧
      (tail = [] ∨ tail = (t.variables_.map Prod.fst).map Event.unlock) ∧
      (t.commit_transaction w ≠ none →
        tail = (t.variables_.map Prod.fst).map Event.unlock) ∧
      (∀ r, t.commit_transaction w = some (true, r) →
        mid = t.read_list.map (fun e => Event.compare e.1) ++ t.write_set.map Event.store ++
          t.async_list.map (fun op => Event.dispatch op.2))) ∧
    lockDiscipline [] (t.commit_events w) = true := by
  have hi := reach_invariant calls w0 t hreach
  have hnd : (t.variables_.map Prod.fst).Nodup :=
    hi.keys_sorted.imp (fun h => Nat.ne_of_lt h)
  obtain ⟨mid, tail, hev, hmid, htail, hret, hfull⟩ := transaction.commit_events_shape t w hi
  refine ⟨rfl, transaction.acquireLocks_of_nonNull _ hi.keys_nonNull, hi.keys_sorted, hnd,
    ⟨mid, tail, hev, ?_, ?_, htail, hret, hfull⟩, ?_⟩
  · intro e he
    rcases hmid e he with ⟨c, _, rfl | rfl⟩ | ⟨F, rfl⟩ <;> rfl
  · intro c hc
    rcases hc with hc | hc
    · rcases hmid _ hc with ⟨c1, hc1, h | h⟩ | ⟨F, h⟩
      · cases h
        exact hc1
      · cases h
      · cases h
    · rcases hmid _ hc with ⟨c1, hc1, h | h⟩ | ⟨F, h⟩
      · cases h
      · cases h
        exact hc1
      · cases h
  · rw [hev, List.append_assoc, lockDiscipline_locks _ _ _ hnd (by simp),
      lockDiscipline_mid mid tail _ ?_]
    · rcases htail with h | h
      · rw [h]
        rfl
      · rw [h]
        exact lockDiscipline_unlocks _ _ hnd (by simp)
    · intro e he
      rcases hmid e he with ⟨c, hc, h⟩ | h
      · exact Or.inl ⟨c, by simp [hc], h⟩
      · exact Or.inr h

/-- C19, instance: the commit of the transaction left by the mixed history, on
the world where `A = 3`, the other cells 1. -/
theorem commit_lock_discipline_witness :
    reach calls_mixed world_A4_B1 = some txn_mixed ∧
    txn_mixed.commit_events world_A3
      = [.lock 1, .lock 2, .lock 3, .compare 2, .compare 1, .store 2, .store 3,
         .unlock 1, .unlock 2, .unlock 3] ∧
    (transaction.commit_traced txn_mixed world_A3
      = (txn_mixed.commit_events world_A3, txn_mixed.commit_transaction world_A3) ∧
    transaction.acquireLocks txn_mixed.variables_ = some (txn_mixed.variables_.map Prod.fst) ∧
    (txn_mixed.variables_.map Prod.fst).Pairwise (fun a b => a < b) ∧
    (txn_mixed.variables_.map Prod.fst).Nodup ∧
    (∃ mid tail,
      txn_mixed.commit_events world_A3
        = (txn_mixed.variables_.map Prod.fst).map Event.lock ++ mid ++ tail ∧
      (∀ e ∈ mid, e.isLockOp = false) ∧
      (∀ c, Event.compare c ∈ mid ∨ Event.store c ∈ mid →
        c ∈ txn_mixed.variables_.map Prod.fst) ∧
      (tail = [] ∨ tail = (txn_mixed.variables_.map Prod.fst).map Event.unlock) ∧
      (txn_mixed.commit_transaction world_A3 ≠ none →
        tail = (txn_mixed.variables_.map Prod.fst).map Event.unlock) ∧
      (∀ r, txn_mixed.commit_transaction world_A3 = some (true, r) →
        mid = txn_mixed.read_list.map (fun e => Event.compare e.1) ++
          txn_mixed.write_set.map Event.store ++
          txn_mixed.async_list.map (fun op => Event.dispatch op.2))) ∧
    lockDiscipline [] (txn_mixed.commit_events world_A3) = true) :=
  ⟨by decide, by decide,
   commit_lock_discipline calls_mixed world_A4_B1 world_A3 txn_mixed (by decide)⟩

/-! ## The shared pointers of the read list -/

namespace transaction_sp

theorem deref_append_heap (heap ext : List Val) (l : List (Ptr × Nat))
    (h : ∀ e ∈ l, e.2 < heap.length) : deref (heap ++ ext) l = deref heap l := by
  unfold deref
  apply List.map_congr_left
  intro e he
  rw [List.getD_append _ _ _ _ (h e he)]

theorem mapFind_deref (heap : List Val) (m : List (Ptr × Nat)) (var : Ptr) :
    mapFind (deref heap m) var = (spFind m var).map (fun a => heap.getD a (.int 0)) := by
  induction m with
  | nil => rfl
  | cons e m ih =>
    obtain ⟨k, a⟩ := e
    simp only [deref, List.map_cons, mapFind, spFind]
    split
    · rfl
    · exact ih

theorem deref_spOrderedInsert (heap : List Val) (m : List (Ptr × Nat)) (var : Ptr) (a : Nat) :
    deref heap (spOrderedInsert m var a)
      = orderedInsert (deref heap m) var (heap.getD a (.int 0)) := by
  induction m with
  | nil => rfl
  | cons e m ih =>
    obtain ⟨k, b⟩ := e
    simp only [spOrderedInsert, deref, List.map_cons, orderedInsert]
    split
    · rfl
    · simp only [List.map_cons, List.cons.injEq, true_and]
      exact ih

theorem deref_spAssign (heap : List Val) (m : List (Ptr × Nat)) (var : Ptr) (a : Nat) :
    deref heap (spAssign m var a) = mapAssign (deref heap m) var (heap.getD a (.int 0)) := by
  induction m with
  | nil => rfl
  | cons e m ih =>
    obtain ⟨k, b⟩ := e
    simp only [spAssign, deref, List.map_cons, mapAssign]
    split
    · rfl
    · simp only [List.map_cons, List.cons.injEq, true_and]
      exact ih

theorem mem_spOrderedInsert (m : List (Ptr × Nat)) (var : Ptr) (a : Nat) (e : Ptr × Nat) :
    e ∈ spOrderedInsert m var a ↔ e = (var, a) ∨ e ∈ m := by
  induction m with
  | nil => simp [spOrderedInsert]
  | cons x m ih =>
    obtain ⟨k, b⟩ := x
    simp only [spOrderedInsert]
    split
    · simp
    · simp only [List.mem_cons, ih]
      tauto

theorem mem_spAssign (m : List (Ptr × Nat)) (var : Ptr) (a : Nat) (e : Ptr × Nat)
    (h : e ∈ spAssign m var a) : e.2 = a ∨ e ∈ m := by
  induction m with
  | nil => simp [spAssign] at h
  | cons x m ih =>
    obtain ⟨k, b⟩ := x
    simp only [spAssign] at h
    split at h
    · rcases List.mem_cons.1 h with h | h
      · left
        rw [h]
      · exact Or.inr (List.mem_cons_of_mem _ h)
    · rcases List.mem_cons.1 h with h | h
      · right
        rw [h]
        exact List.mem_cons_self _ _
      · rcases ih h with h1 | h1
        · exact Or.inl h1
        · exact Or.inr (List.mem_cons_of_mem _ h1)

theorem getD_snoc_length (heap : List Val) (x : Val) :
    (heap ++ [x]).getD heap.length (.int 0) = x := by
  simp [List.getD_eq_getElem?_getD]

/-- Calling `read` with the pointers kept and then reading the pointers is
calling `read` on the by-value transaction; the heap only grows, the read list
only grows, and the pointers stay valid. -/
theorem read_refines (t : transaction_sp) (cells : Cells) (var : Ptr) (hv : t.Valid) :
    (∀ t1 a, t.read cells var = some (t1, a) →
      t.abs.read cells var = some (t1.abs, t1.heap.getD a (.int 0)) ∧ t1.Valid ∧
      (∃ ext, t1.heap = t.heap ++ ext) ∧ (∃ ext, t1.read_list = t.read_list ++ ext)) ∧
    (t.read cells var = none → t.abs.read cells var = none) := by
  unfold read transaction.read
  by_cases hvar : var = NULL
  · simp [hvar]
  · simp only [hvar, if_false]
    have hfind := mapFind_deref t.heap t.variables_ var
    cases hf : spFind t.variables_ var with
    | none =>
      rw [hf] at hfind
      simp only [abs, Option.map_none'] at hfind ⊢
      simp only [hfind]
      refine ⟨?_, by simp⟩
      intro t1 a h
      simp only [Option.some.injEq, Prod.mk.injEq] at h
      obtain ⟨rfl, rfl⟩ := h
      refine ⟨?_, ⟨?_, ?_⟩, ⟨_, rfl⟩, ⟨_, rfl⟩⟩
      · simp only [atomic.clone, getD_snoc_length, deref_spOrderedInsert,
          deref_append_heap _ _ _ hv.2, Option.some.injEq, Prod.mk.injEq, and_true]
        congr 1
        simp only [deref, List.map_append, List.map_cons, List.map_nil]
        rw [show List.map (fun e => (e.1, (t.heap ++ [cells var]).getD e.2 (Val.int 0)))
              t.read_list = deref (t.heap ++ [cells var]) t.read_list from rfl,
          deref_append_heap _ _ _ hv.1]
        simp [deref, List.getD_eq_getElem?_getD]
      · intro e he
        simp only [List.length_append, List.length_singleton]
        rcases List.mem_append.1 he with he | he
        · exact Nat.lt_succ_of_lt (hv.1 e he)
        · simp only [List.mem_singleton] at he
          rw [he]
          exact Nat.lt_succ_self _
      · intro e he
        simp only [List.length_append, List.length_singleton]
        rcases (mem_spOrderedInsert _ _ _ _).1 he with he | he
        · rw [he]
          exact Nat.lt_succ_self _
        · exact Nat.lt_succ_of_lt (hv.2 e he)
    | some a0 =>
      rw [hf] at hfind
      simp only [abs, Option.map_some'] at hfind ⊢
      simp only [hfind]
      refine ⟨?_, by simp⟩
      intro t1 a h
      simp only [Option.some.injEq, Prod.mk.injEq] at h
      obtain ⟨rfl, rfl⟩ := h
      exact ⟨rfl, hv, ⟨[], by simp⟩, ⟨[], by simp⟩⟩

/-- The same for `write`. -/
theorem write_refines (t : transaction_sp) (var : Ptr) (v : Val) (hv : t.Valid) :
    (∀ t1, t.write var v = some t1 →
      t.abs.write var v = some t1.abs ∧ t1.Valid ∧
      (∃ ext, t1.heap = t.heap ++ ext) ∧ t1.read_list = t.read_list) ∧
    (t.write var v = none → t.abs.write var v = none) := by
  unfold write transaction.write
  by_cases hvar : var = NULL
  · simp [hvar]
  · simp only [hvar, if_false]
    have hfind := mapFind_deref t.heap t.variables_ var
    have hvalid_rl : ∀ e ∈ t.read_list, e.2 < (t.heap ++ [atomic.clone v]).length := by
      intro e he
      simp only [List.length_append, List.length_singleton]
      exact Nat.lt_succ_of_lt (hv.1 e he)
    cases hf : spFind t.variables_ var with
    | none =>
      rw [hf] at hfind
      simp only [abs, Option.map_none'] at hfind ⊢
      simp only [hfind]
      refine ⟨?_, by simp⟩
      intro t1 h
      simp only [Option.some.injEq] at h
      subst h
      refine ⟨?_, ⟨hvalid_rl, ?_⟩, ⟨_, rfl⟩, rfl⟩
      · simp only [atomic.clone, getD_snoc_length, deref_spOrderedInsert,
          deref_append_heap _ _ _ hv.2, deref_append_heap _ _ _ hv.1]
      · intro e he
        simp only [List.length_append, List.length_singleton]
        rcases (mem_spOrderedInsert _ _ _ _).1 he with he | he
        · rw [he]
          exact Nat.lt_succ_self _
        · exact Nat.lt_succ_of_lt (hv.2 e he)
    | some a0 =>
      rw [hf] at hfind
      simp only [abs, Option.map_some'] at hfind ⊢
      simp only [hfind]
      refine ⟨?_, by simp⟩
      intro t1 h
      simp only [Option.some.injEq] at h
      subst h
      refine ⟨?_, ⟨hvalid_rl, ?_⟩, ⟨_, rfl⟩, rfl⟩
      · simp only [atomic.clone, getD_snoc_length, deref_spAssign,
          deref_append_heap _ _ _ hv.2, deref_append_heap _ _ _ hv.1]
      · intro e he
        simp only [List.length_append, List.length_singleton]
        rcases mem_spAssign _ _ _ _ he with he | he
        · rw [he]
          exact Nat.lt_succ_self _
        · exact Nat.lt_succ_of_lt (hv.2 e he)

end transaction_sp

theorem transaction_sp.spFind_spOrderedInsert_self (m : List (Ptr × Nat)) (var : Ptr)
    (a : Nat) (h : spFind m var = none) : spFind (spOrderedInsert m var a) var = some a := by
  induction m with
  | nil => simp [spOrderedInsert, spFind]
  | cons e m ih =>
    obtain ⟨k, b⟩ := e
    simp only [spFind] at h
    split at h
    · cases h
    · rename_i hne
      simp only [spOrderedInsert]
      split
      · simp [spFind]
      · simp only [spFind, hne, if_false]
        exact ih h

theorem transaction_sp.spFind_mem (m : List (Ptr × Nat)) (var : Ptr) (a : Nat)
    (h : spFind m var = some a) : (var, a) ∈ m := by
  induction m with
  | nil => simp [spFind] at h
  | cons e m ih =>
    obtain ⟨k, b⟩ := e
    simp only [spFind] at h
    split at h
    · rename_i hk
      simp only [Option.some.injEq] at h
      rw [hk, h]
      exact List.mem_cons_self _ _
    · exact List.mem_cons_of_mem _ (ih h)

/-- One call with the pointers kept is the same call on the by-value transaction. -/
theorem Op.step_sp_refines (op : Op) (t t1 : transaction_sp) (w w1 : World)
    (hv : t.Valid) (h : op.step_sp t w = some (t1, w1)) :
    op.step t.abs w = some (t1.abs, w1) ∧ t1.Valid ∧
    (∃ ext, t1.heap = t.heap ++ ext) ∧ (∃ ext, t1.read_list = t.read_list ++ ext) := by
  cases op with
  | read x =>
    simp only [Op.step_sp] at h
    split at h
    · cases h
    · rename_i t2 a hr
      simp only [Option.some.injEq, Prod.mk.injEq] at h
      obtain ⟨rfl, rfl⟩ := h
      obtain ⟨r1, r2, r3, r4⟩ := (transaction_sp.read_refines t w.cells x hv).1 t2 a hr
      exact ⟨by simp [Op.step, r1], r2, r3, r4⟩
  | write x value =>
    simp only [Op.step_sp] at h
    split at h
    · cases h
    · rename_i t2 hwr
      simp only [Option.some.injEq, Prod.mk.injEq] at h
      obtain ⟨rfl, rfl⟩ := h
      obtain ⟨r1, r2, r3, r4⟩ := (transaction_sp.write_refines t x value hv).1 t2 hwr
      exact ⟨by simp [Op.step, r1], r2, r3, ⟨[], by simp [r4]⟩⟩
  | async fut F =>
    simp only [Op.step_sp, Option.some.injEq, Prod.mk.injEq] at h
    obtain ⟨rfl, rfl⟩ := h
    exact ⟨rfl, hv, ⟨[], by simp [transaction_sp.async]⟩, ⟨[], by simp [transaction_sp.async]⟩⟩
  | direct x rhs =>
    simp only [Op.step_sp, Option.some.injEq, Prod.mk.injEq] at h
    obtain ⟨rfl, rfl⟩ := h
    exact ⟨rfl, hv, ⟨[], by simp⟩, ⟨[], by simp⟩⟩

theorem runOps_sp_refines (ops : List Op) (t t1 : transaction_sp) (w w1 : World)
    (hv : t.Valid) (h : runOps_sp ops t w = some (t1, w1)) :
    runOps ops t.abs w = some (t1.abs, w1) ∧ t1.Valid ∧
    (∃ ext, t1.heap = t.heap ++ ext) ∧ (∃ ext, t1.read_list = t.read_list ++ ext) := by
  induction ops generalizing t w with
  | nil =>
    simp only [runOps_sp, Option.some.injEq, Prod.mk.injEq] at h
    obtain ⟨rfl, rfl⟩ := h
    exact ⟨rfl, hv, ⟨[], by simp⟩, ⟨[], by simp⟩⟩
  | cons op ops ih =>
    simp only [runOps_sp] at h
    split at h
    · cases h
    · rename_i t2 w2 hs
      obtain ⟨s1, s2, ⟨e1, s3⟩, ⟨e2, s4⟩⟩ := Op.step_sp_refines op t t2 w w2 hv hs
      obtain ⟨i1, i2, ⟨e3, i3⟩, ⟨e4, i4⟩⟩ := ih t2 w2 s2 h
      refine ⟨by simp [runOps, s1, i1], i2, ⟨e1 ++ e3, ?_⟩, ⟨e2 ++ e4, ?_⟩⟩
      · rw [i3, s3, List.append_assoc]
      · rw [i4, s4, List.append_assoc]

/-- C17: with the shared pointers of the source kept, a first `read(C)` appends
to the read log an entry that points to the same snapshot object as the working
set; after any further reads, writes (to `C` too), async enqueues and changes of
the live cells in the attempt, the read log still contains that entry and the
object it points to still holds the value of `C` as first observed, while the
working-set entry for `C` holds the value written last; read by value, the
transaction is the by-value transaction of this development, whose read log
contains `(C, first value)`. -/
theorem read_log_snapshot_immutable (t t1 t2 : transaction_sp) (cells : Cells) (C : Ptr)
    (a : Nat) (ops : List Op) (w w2 : World)
    (hv : t.Valid) (habsent : spFind t.variables_ C = none)
    (hread : t.read cells C = some (t1, a))
    (hrun : runOps_sp ops t1 w = some (t2, w2)) :
    ((C, a) ∈ t1.read_list ∧ spFind t1.variables_ C = some a ∧
      t1.heap[a]? = some (cells C)) ∧
    ((C, a) ∈ t2.read_list ∧ t2.heap[a]? = some (cells C)) ∧
    (t.abs.read cells C = some (t1.abs, cells C) ∧
      runOps ops t1.abs w = some (t2.abs, w2) ∧ (C, cells C) ∈ t2.abs.read_list) ∧
    (∀ v, lastWrite ops C = some v →
      mapFind t2.abs.variables_ C = some v ∧
      ∃ a1, spFind t2.variables_ C = some a1 ∧ t2.heap[a1]? = some v) := by
  obtain ⟨r1, r2, _, _⟩ := (transaction_sp.read_refines t cells C hv).1 t1 a hread
  obtain ⟨s1, s2, ⟨hext, s3⟩, ⟨rext, s4⟩⟩ := runOps_sp_refines ops t1 t2 w w2 r2 hrun
  have hC : C ≠ NULL := by
    intro hc
    simp [transaction_sp.read, hc] at hread
  simp only [transaction_sp.read, hC, if_false, habsent, Option.some.injEq,
    Prod.mk.injEq] at hread
  obtain ⟨ht1, ha⟩ := hread
  have hmem1 : (C, a) ∈ t1.read_list := by
    rw [← ht1, ← ha]
    simp
  have hheap1 : t1.heap[a]? = some (cells C) := by
    rw [← ht1, ← ha]
    simp [atomic.clone]
  have hlt : a < t1.heap.length := by
    rw [← ht1, ← ha]
    simp
  have hheap2 : t2.heap[a]? = some (cells C) := by
    rw [s3, List.getElem?_append_left hlt, hheap1]
  have hmem2 : (C, a) ∈ t2.read_list := by
    rw [s4]
    exact List.mem_append_left _ hmem1
  have hgetD1 : t1.heap.getD a (.int 0) = cells C := by
    rw [List.getD_eq_getElem?_getD, hheap1]
    rfl
  refine ⟨⟨hmem1, ?_, hheap1⟩, ⟨hmem2, hheap2⟩, ⟨?_, s1, ?_⟩, ?_⟩
  · rw [← ht1, ← ha]
    exact transaction_sp.spFind_spOrderedInsert_self _ _ _ habsent
  · rw [r1, hgetD1]
  · have : (C, t2.heap.getD a (.int 0)) ∈ t2.abs.read_list :=
      List.mem_map.2 ⟨(C, a), hmem2, rfl⟩
    rw [List.getD_eq_getElem?_getD, hheap2] at this
    exact this
  · intro v hl
    obtain ⟨l1, _⟩ := runOps_lastWrite ops t1.abs t2.abs w w2 C v s1 hl
    refine ⟨l1, ?_⟩
    have hfd := transaction_sp.mapFind_deref t2.heap t2.variables_ C
    change mapFind t2.abs.variables_ C = _ at hfd
    rw [l1] at hfd
    cases hf : spFind t2.variables_ C with
    | none => simp [hf] at hfd
    | some a1 =>
      simp only [hf, Option.map_some', Option.some.injEq] at hfd
      refine ⟨a1, rfl, ?_⟩
      have hlt1 : a1 < t2.heap.length := s2.2 _ (transaction_sp.spFind_mem _ _ _ hf)
      rw [List.getD_eq_getElem?_getD, List.getElem?_eq_getElem hlt1] at hfd
      rw [List.getElem?_eq_getElem hlt1]
      simpa using hfd.symm

/-- C17, instance: `A` is read (4), then read again, overwritten with 16 and with
15 among other calls; the read list still points to the object holding 4. -/
theorem read_log_snapshot_immutable_witness :
    (transaction_sp.empty.Valid ∧ spFind transaction_sp.empty.variables_ 1 = none ∧
      transaction_sp.empty.read world_A4_B1.cells 1 = some (txn_sp_read_A, 0) ∧
      (runOps_sp ops_overwrite txn_sp_read_A world_A4_B1).map Prod.fst
        = some txn_sp_overwritten ∧
      lastWrite ops_overwrite 1 = some (.int 15)) ∧
    (((1, 0) ∈ txn_sp_read_A.read_list ∧ spFind txn_sp_read_A.variables_ 1 = some 0 ∧
      txn_sp_read_A.heap[0]? = some (world_A4_B1.cells 1)) ∧
    ((1, 0) ∈ txn_sp_overwritten.read_list ∧
      txn_sp_overwritten.heap[0]? = some (world_A4_B1.cells 1)) ∧
    (transaction_sp.empty.abs.read world_A4_B1.cells 1
        = some (txn_sp_read_A.abs, world_A4_B1.cells 1) ∧
      runOps ops_overwrite txn_sp_read_A.abs world_A4_B1
        = some (txn_sp_overwritten.abs, world_A4_B1) ∧
      (1, world_A4_B1.cells 1) ∈ txn_sp_overwritten.abs.read_list) ∧
    (∀ v, lastWrite ops_overwrite 1 = some v →
      mapFind txn_sp_overwritten.abs.variables_ 1 = some v ∧
      ∃ a1, spFind txn_sp_overwritten.variables_ 1 = some a1 ∧
        txn_sp_overwritten.heap[a1]? = some v)) :=
  ⟨by decide,
   read_log_snapshot_immutable transaction_sp.empty txn_sp_read_A txn_sp_overwritten
     world_A4_B1.cells 1 0 ops_overwrite world_A4_B1 world_A4_B1 (by decide) (by decide)
     rfl rfl⟩

/-! ## Deadlock freedom of phase 1 -/

theorem exists_max_of_ne_nil {α : Type} (f : α → Nat) (l : List α) (h : l ≠ []) :
    ∃ x ∈ l, ∀ y ∈ l, f y ≤ f x := by
  induction l with
  | nil => exact absurd rfl h
  | cons a l ih =>
    by_cases hl : l = []
    · subst hl
      exact ⟨a, List.mem_cons_self _ _, fun y hy => by
        simp only [List.mem_singleton] at hy
        rw [hy]⟩
    · obtain ⟨x, hx, hmax⟩ := ih hl
      by_cases hax : f x ≤ f a
      · refine ⟨a, List.mem_cons_self _ _, fun y hy => ?_⟩
        rcases List.mem_cons.1 hy with rfl | hy
        · exact Nat.le_refl _
        · exact Nat.le_trans (hmax y hy) hax
      · refine ⟨x, List.mem_cons_of_mem _ hx, fun y hy => ?_⟩
        rcases List.mem_cons.1 hy with rfl | hy
        · exact Nat.le_of_lt (Nat.lt_of_not_le hax)
        · exact hmax y hy

/-- In a strictly increasing list every element of a prefix is below the element
that follows the prefix. -/
theorem lt_of_mem_take (l : List Ptr) (k : Nat) (c d : Ptr)
    (hs : l.Pairwise (fun a b => a < b)) (hc : c ∈ l.take k) (hd : l[k]? = some d) :
    c < d := by
  have hsplit : l = l.take k ++ l.drop k := (List.take_append_drop k l).symm
  rw [hsplit] at hs
  have hd2 : d ∈ l.drop k := by
    have h0 : (l.drop k)[0]? = some d := by
      rw [List.getElem?_drop]
      exact hd
    exact List.getElem?_mem h0
  exact (List.pairwise_append.1 hs).2.2 c hc d hd2

/-- The locking order of a reachable transaction: the keys of the variable map,
strictly increasing. -/
theorem lockOrder_of_reach (calls : List Call) (w0 : World) (t : transaction)
    (h : reach calls w0 = some t) :
    t.lockOrder = t.variables_.map Prod.fst ∧
    t.lockOrder.Pairwise (fun a b => a < b) := by
  have hi := reach_invariant calls w0 t h
  have hl : t.lockOrder = t.variables_.map Prod.fst := by
    unfold transaction.lockOrder
    rw [transaction.acquireLocks_of_nonNull _ hi.keys_nonNull]
  exact ⟨hl, hl ▸ hi.keys_sorted⟩

/-- C15: in every non-empty pool of threads that are inside `commit_transaction`
on transactions reached through the interface, each thread having locked any
prefix of its locks, every thread locks the keys of its variable map in strictly
increasing order of cell identity, and at least one thread is not blocked: the
mutex it is about to lock is held by no thread of the pool, or it has finished
phase 1.  No set of committing transactions waits in a cycle. -/
theorem commits_cannot_deadlock (pool : List Committer) (hne : pool ≠ [])
    (hreach : ∀ p ∈ pool, ∃ calls w0, reach calls w0 = some p.txn) :
    (∀ p ∈ pool, p.txn.lockOrder = p.txn.variables_.map Prod.fst ∧
      p.txn.lockOrder.Pairwise (fun a b => a < b)) ∧
    ∃ p ∈ pool, p.blocked pool = false := by
  have hord : ∀ p ∈ pool, p.txn.lockOrder = p.txn.variables_.map Prod.fst ∧
      p.txn.lockOrder.Pairwise (fun a b => a < b) := by
    intro p hp
    obtain ⟨calls, w0, h⟩ := hreach p hp
    exact lockOrder_of_reach calls w0 _ h
  refine ⟨hord, ?_⟩
  by_contra hall
  have hblocked : ∀ p ∈ pool, p.blocked pool = true := by
    intro p hp
    cases hb : p.blocked pool with
    | true => rfl
    | false => exact absurd ⟨p, hp, hb⟩ hall
  obtain ⟨p, hp, hmax⟩ := exists_max_of_ne_nil (fun q => q.waitsFor.getD 0) pool hne
  have hbp := hblocked p hp
  unfold Committer.blocked at hbp
  cases hwp : p.waitsFor with
  | none => simp [hwp] at hbp
  | some c =>
    simp only [hwp, List.any_eq_true, decide_eq_true_eq] at hbp
    obtain ⟨q, hq, hcq⟩ := hbp
    have hbq := hblocked q hq
    unfold Committer.blocked at hbq
    cases hwq : q.waitsFor with
    | none => simp [hwq] at hbq
    | some d =>
      have hlt : c < d := lt_of_mem_take _ _ c d (hord q hq).2 hcq hwq
      have hle := hmax q hq
      simp only [hwp, hwq, Option.getD_some] at hle
      exact absurd hlt (Nat.not_lt.2 hle)

/-- C15, instance: a pool of three committing threads in which the first waits
for the second and the second for the third; the third is not blocked. -/
theorem commits_cannot_deadlock_witness :
    pool_three.map (fun p => (p.held, p.waitsFor, p.blocked pool_three))
      = [([1], some 2, true), ([2], some 3, true), ([3], none, false)] ∧
    ((∀ p ∈ pool_three, p.txn.lockOrder = p.txn.variables_.map Prod.fst ∧
      p.txn.lockOrder.Pairwise (fun a b => a < b)) ∧
    ∃ p ∈ pool_three, p.blocked pool_three = false) :=
  ⟨by decide,
   commits_cannot_deadlock pool_three (by decide) (by
     intro p hp
     simp only [pool_three, List.mem_cons, List.mem_singleton, List.not_mem_nil,
       or_false] at hp
     rcases hp with rfl | rfl | rfl
     · exact ⟨[.op (.write 1 (.int 0)), .op (.write 2 (.int 0))], world_A4_B1, by decide⟩
     · exact ⟨[.op (.write 3 (.int 0)), .op (.write 2 (.int 0))], world_A4_B1, by decide⟩
     · exact ⟨[.op (.write 3 (.int 5))], world_A4_B1, by decide⟩)⟩

/-! ## Isolation of two concurrent atomic blocks -/

namespace Thread

end Thread

end AsyncSTM
